import Mathlib

/-!
Verification of the text-transformation engine of `src/update_debug.py`
(PeerPigeon's debug-logger migration script).

Source documents are modelled as `List Char`.  The Python functions are
embedded as executable Lean definitions:

* `re.findall(r'(import[^;]+;)', content)`       → `findImports`
* the import-insertion block (lines 39-49)        → `importStep`
* `re.search(r'(constructor\([^)]*\)\s*{[^}]*super\(\);)', ...)` → `ctorSearch`
* the logger-acquisition block (lines 52-59)      → `loggerStep`
* the five `re.sub` replacements (lines 62-71)    → `substStep`
* `update_file`'s in-memory transform             → `transform`
* the batch runner `main` over a filesystem map   → `runBatch`

`str.replace(old, new, 1)` is `replaceFirst`; `re.sub` on an escaped literal
pattern is `replaceAll` (left-to-right, non-overlapping).  Python's `\s` is
modelled by its ASCII whitespace class.
-/

set_option maxRecDepth 4000

namespace UpdateDebug

/-- `p` occurs as a contiguous substring of `t`. -/
def Occ (p t : List Char) : Prop := ∃ u v, t = u ++ p ++ v

/-- Boolean substring containment, mirroring Python's `in` on strings. -/
def containsSub (p : List Char) : List Char → Bool
  | [] => p.isEmpty
  | c :: t => p.isPrefixOf (c :: t) || containsSub p t

theorem isPrefixOf_iff {p t : List Char} : p.isPrefixOf t = true ↔ ∃ v, t = p ++ v := by
  induction p generalizing t with
  | nil => simp [List.isPrefixOf]
  | cons c p ih =>
    cases t with
    | nil => simp [List.isPrefixOf]
    | cons d t =>
      simp only [List.isPrefixOf, Bool.and_eq_true, beq_iff_eq, ih, List.cons_append,
        List.cons.injEq]
      constructor
      · rintro ⟨rfl, v, rfl⟩; exact ⟨v, rfl, rfl⟩
      · rintro ⟨v, rfl, rfl⟩; exact ⟨rfl, v, rfl⟩

theorem containsSub_iff {p t : List Char} : containsSub p t = true ↔ Occ p t := by
  induction t with
  | nil =>
    simp only [containsSub, List.isEmpty_iff, Occ]
    constructor
    · rintro rfl; exact ⟨[], [], rfl⟩
    · rintro ⟨u, v, h⟩
      rcases List.append_eq_nil.mp h.symm with ⟨h1, h2⟩
      exact (List.append_eq_nil.mp h1).2
  | cons c t ih =>
    simp only [containsSub, Bool.or_eq_true, isPrefixOf_iff, ih]
    constructor
    · rintro (⟨v, hv⟩ | ⟨u, v, hv⟩)
      · exact ⟨[], v, by simpa using hv⟩
      · exact ⟨c :: u, v, by simp [hv]⟩
    · rintro ⟨u, v, hv⟩
      cases u with
      | nil => exact Or.inl ⟨v, by simpa using hv⟩
      | cons d u =>
        simp only [List.cons_append, List.cons.injEq] at hv
        exact Or.inr ⟨u, v, hv.2⟩

/-! ### String replacement primitives (Python `str.replace` / literal `re.sub`) -/

/-- Python `content.replace(old, new, 1)`: replace the first occurrence of `p`
(left-to-right scan), leave the text unchanged when `p` does not occur. -/
def replaceFirst (p r : List Char) : List Char → List Char
  | [] => []
  | c :: t => if p.isPrefixOf (c :: t) then r ++ t.drop (p.length - 1)
              else c :: replaceFirst p r t

/-- Python `re.sub(pat, rep, content)` for a literal pattern: replace every
occurrence, scanning left to right without overlap. -/
def replaceAll (p r : List Char) : List Char → List Char
  | [] => []
  | c :: t => if p.isPrefixOf (c :: t) then r ++ replaceAll p r (t.drop (p.length - 1))
              else c :: replaceAll p r t
termination_by l => l.length
decreasing_by
  · simp only [List.length_cons]
    have := List.length_drop (p.length - 1) t
    omega
  · simp

/-! ### The import block, lines 39-49 of `update_debug.py` -/

/-- Index of the first `;` in a list, if any. -/
def semiIdx : List Char → Option Nat
  | [] => none
  | c :: t => if c = ';' then some 0 else (semiIdx t).map (· + 1)

/-- Length of the match of `import[^;]+;` anchored at the front of `s`
(greedy `[^;]+` is forced: everything up to the first `;`). -/
def importMatchLen (s : List Char) : Option Nat :=
  if ("import".data).isPrefixOf s then
    match semiIdx (s.drop 6) with
    | some k => if k = 0 then none else some (6 + k + 1)
    | none => none
  else none

/-- The scan of `re.findall`, with an explicit recursion bound (every match
consumes at least one character, so the text's length always suffices). -/
def findImportsAux : Nat → List Char → List (List Char)
  | 0, _ => []
  | _ + 1, [] => []
  | fuel + 1, c :: t =>
    match importMatchLen (c :: t) with
    | some n => (c :: t).take n :: findImportsAux fuel (t.drop (n - 1))
    | none => findImportsAux fuel t

/-- `re.findall(r'(import[^;]+;)', content)`: all matches, scanning left to
right without overlap. -/
def findImports (t : List Char) : List (List Char) := findImportsAux t.length t

/-- The guard substring `'import DebugLogger'`. -/
def marker1 : List Char := "import DebugLogger".data

/-- The inserted import line `import DebugLogger from './DebugLogger.js';`. -/
def importLine : List Char := "import DebugLogger from './DebugLogger.js';".data

/-- Lines 39-49: if the guard substring is absent, splice the logger import
after the last `import …;` match (first occurrence of that text), or prepend
it when there is no import at all. -/
def importStep (content : List Char) : List Char :=
  if containsSub marker1 content then content
  else
    match (findImports content).getLast? with
    | some last => replaceFirst last (last ++ '\n' :: importLine) content
    | none => importLine ++ '\n' :: content

/-! ### The constructor block, lines 52-59 -/

/-- The guard substring `'this.debug = DebugLogger.create'`. -/
def marker2 : List Char := "this.debug = DebugLogger.create".data

/-- `"constructor("` — the fixed head of the constructor pattern. -/
def CTOR : List Char := "constructor(".data

/-- `"super();"` — the fixed tail of the constructor pattern. -/
def SUPER : List Char := "super();".data

/-- Python's `\s` (ASCII part): the whitespace class used by `\s*`. -/
def isWs (c : Char) : Bool :=
  c = ' ' || c = '\t' || c = '\n' || c = '\r' || c = '\x0b' || c = '\x0c'

/-- Index of the first occurrence of character `c`, if any. -/
def charIdx (c : Char) : List Char → Option Nat
  | [] => none
  | d :: t => if d = c then some 0 else (charIdx c t).map (· + 1)

/-- Offset just past the last occurrence of `p` in `s` (`none` when `p` does
not occur); the greedy `[^}]*` backtracks to the rightmost `super();`. -/
def lastOccEnd (p : List Char) : List Char → Option Nat
  | [] => none
  | c :: t =>
    match lastOccEnd p t with
    | some k => some (k + 1)
    | none => if p.isPrefixOf (c :: t) then some p.length else none

/-- Length of the match of `constructor\([^)]*\)\s*{[^}]*super\(\);` anchored
at the front of `s`: the literal head, everything up to the first `)`, the
whitespace run, `{`, then the greedy brace-free run ending at the last
`super();` before the first `}`. -/
def ctorMatchLen (s : List Char) : Option Nat :=
  if CTOR.isPrefixOf s then
    match charIdx ')' (s.drop 12) with
    | none => none
    | some a =>
      let s2 := (s.drop 12).drop (a + 1)
      let w := (s2.takeWhile isWs).length
      match s2.drop w with
      | c :: s3 =>
        if c = '\x7b' then
          match lastOccEnd SUPER (s3.takeWhile (· ≠ '\x7d')) with
          | some e => some (12 + (a + 1) + w + 1 + e)
          | none => none
        else none
      | [] => none
  else none

/-- `re.search(constructor_pattern, content, re.DOTALL)`: the leftmost match,
returned as the matched text. -/
def ctorSearch : List Char → Option (List Char)
  | [] => none
  | c :: t =>
    match ctorMatchLen (c :: t) with
    | some n => some ((c :: t).take n)
    | none => ctorSearch t

/-- The quote character `'`. -/
def qc : Char := '\''

/-- `f"\n    this.debug = DebugLogger.create('{class_name}');"`. -/
def loggerLine (cls : List Char) : List Char :=
  '\n' :: "    this.debug = DebugLogger.create(".data ++ qc :: cls ++ qc :: ");".data

/-- Lines 52-59: if the guard substring is absent and the constructor pattern
matches, splice the logger-acquisition line after the first occurrence of the
matched text. -/
def loggerStep (cls content : List Char) : List Char :=
  if containsSub marker2 content then content
  else
    match ctorSearch content with
    | some m => replaceFirst m (m ++ loggerLine cls) content
    | none => content

/-! ### The call-site substitutions, lines 62-71 -/

/-- The five `(pattern, replacement)` pairs, in the order the script applies
them. -/
def rules : List (List Char × List Char) :=
  [ ("console.log(".data, "this.debug.log(".data),
    ("console.warn(".data, "this.debug.warn(".data),
    ("console.error(".data, "this.debug.error(".data),
    ("console.info(".data, "this.debug.info(".data),
    ("console.debug(".data, "this.debug.debug(".data) ]

/-- Lines 70-71: the five global substitutions applied in order. -/
def substStep (content : List Char) : List Char :=
  rules.foldl (fun acc pr => replaceAll pr.1 pr.2 acc) content

/-! ### `update_file`'s in-memory transform and the batch -/

/-- The pure content transform of `update_file` (lines 38-71): import
insertion, then logger acquisition, then call-site substitution. -/
def transform (cls content : List Char) : List Char :=
  substStep (loggerStep cls (importStep content))

/-- The filesystem, as the association of paths to contents of the files that
exist. -/
def FS := List (List Char × List Char)

/-- `os.path.exists` + `open(filepath).read()`. -/
def readFS (fs : FS) (path : List Char) : Option (List Char) :=
  match fs with
  | [] => none
  | (p, c) :: rest => if p = path then some c else readFS rest path

/-- `open(filepath, 'w').write(content)` on an existing file. -/
def writeFS (fs : FS) (path content : List Char) : FS :=
  match fs with
  | [] => []
  | (p, c) :: rest =>
    if p = path then (p, content) :: rest else (p, c) :: writeFS rest path content

/-- The skip notice `f"File {filepath} not found, skipping..."`. -/
def skipMsg (path : List Char) : List Char :=
  "File ".data ++ path ++ " not found, skipping...".data

/-- The progress line `f"Updating {filepath}..."`. -/
def updMsg (path : List Char) : List Char :=
  "Updating ".data ++ path ++ "...".data

/-- The success line `f"  ✓ Updated {filepath}"`. -/
def okMsg (path : List Char) : List Char :=
  "  ✓ Updated ".data ++ path

/-- `update_file(filepath, class_name)`: skip (with notice) when the path does
not exist, otherwise read, transform and write back.  Returns the new
filesystem and the lines printed. -/
def update_file (fs : FS) (path cls : List Char) : FS × List (List Char) :=
  match readFS fs path with
  | none => (fs, [skipMsg path])
  | some content => (writeFS fs path (transform cls content), [updMsg path, okMsg path])

/-- The loop of `main` over the configuration entries, in order. -/
def runBatch (fs : FS) : List (List Char × List Char) → FS × List (List Char)
  | [] => (fs, [])
  | (path, cls) :: rest =>
    let r1 := update_file fs path cls
    let r2 := runBatch r1.1 rest
    (r2.1, r1.2 ++ r2.2)

/-! ### Occurrence algebra -/

theorem occ_nil_iff {q : List Char} : Occ q [] ↔ q = [] := by
  constructor
  · rintro ⟨u, v, h⟩
    rcases List.append_eq_nil.mp h.symm with ⟨h1, h2⟩
    exact (List.append_eq_nil.mp h1).2
  · rintro rfl; exact ⟨[], [], rfl⟩

theorem occ_append_left {q x : List Char} (y : List Char) (h : Occ q x) : Occ q (x ++ y) := by
  obtain ⟨u, v, rfl⟩ := h
  exact ⟨u, v ++ y, by simp⟩

theorem occ_append_right {q y : List Char} (x : List Char) (h : Occ q y) : Occ q (x ++ y) := by
  obtain ⟨u, v, rfl⟩ := h
  exact ⟨x ++ u, v, by simp⟩

theorem occ_trans {q s t : List Char} (h1 : Occ q s) (h2 : Occ s t) : Occ q t := by
  obtain ⟨u, v, rfl⟩ := h1
  obtain ⟨a, b, rfl⟩ := h2
  exact ⟨a ++ u, v ++ b, by simp⟩

/-- Splitting an append equation at the shorter left part. -/
theorem split_append {a b c d : List Char} (h : a ++ b = c ++ d)
    (hl : a.length ≤ c.length) : ∃ m, c = a ++ m ∧ b = m ++ d := by
  rcases List.append_eq_append_iff.mp h with ⟨m, hm1, hm2⟩ | ⟨m, hm1, hm2⟩
  · exact ⟨m, hm1, hm2⟩
  · have : m = [] := by
      have := congrArg List.length hm1
      simp at this
      exact List.eq_nil_of_length_eq_zero (by omega)
    subst this
    exact ⟨[], by simpa using hm1.symm, by simpa using hm2.symm⟩

/-- Where an occurrence in an append can sit: inside the left part, inside the
right part, or straddling the boundary. -/
theorem occ_append_cases {q x y : List Char} (h : Occ q (x ++ y)) :
    Occ q x ∨ Occ q y ∨
      ∃ q1 q2, q = q1 ++ q2 ∧ q1 ≠ [] ∧ q2 ≠ [] ∧
        (∃ u, x = u ++ q1) ∧ (∃ v, y = q2 ++ v) := by
  obtain ⟨u, v, he⟩ := h
  by_cases hu : x.length ≤ u.length
  · obtain ⟨m, hm1, hm2⟩ := split_append (a := x) (b := y) (c := u) (d := q ++ v)
      (by simpa [List.append_assoc] using he) hu
    exact Or.inr (Or.inl ⟨m, v, by simp [hm2]⟩)
  · push_neg at hu
    obtain ⟨m, hm1, hm2⟩ := split_append (a := u) (b := q ++ v) (c := x) (d := y)
      (by simpa [List.append_assoc] using he.symm) (by omega)
    have hmne : m ≠ [] := by
      intro hnil
      subst hnil
      have := congrArg List.length hm1
      simp at this
      omega
    by_cases hq : q.length ≤ m.length
    · obtain ⟨n, hn1, hn2⟩ := split_append hm2 hq
      exact Or.inl ⟨u, n, by rw [hm1, hn1, List.append_assoc]⟩
    · push_neg at hq
      obtain ⟨n, hn1, hn2⟩ := split_append hm2.symm (by omega)
      have hnne : n ≠ [] := by
        intro hnil
        subst hnil
        have := congrArg List.length hn1
        simp at this
        omega
      exact Or.inr (Or.inr ⟨m, n, hn1, hmne, hnne, ⟨u, hm1⟩, ⟨v, hn2⟩⟩)

/-- An occurrence in `c :: t` is a front match or an occurrence in `t`. -/
theorem occ_cons_cases {q t : List Char} {c : Char} (h : Occ q (c :: t)) :
    (∃ v, c :: t = q ++ v) ∨ Occ q t := by
  obtain ⟨u, v, he⟩ := h
  cases u with
  | nil => exact Or.inl ⟨v, by simpa using he⟩
  | cons d u =>
    simp only [List.cons_append, List.cons.injEq] at he
    exact Or.inr ⟨u, v, he.2⟩

/-! ### Non-overlap of concrete pattern strings -/

/-- Occurrences of `a` and `b` can never overlap in any text: no nonempty
suffix of either is a prefix of the other, and neither occurs inside the
other. -/
def noOvl (a b : List Char) : Bool :=
  (a.tails.all fun s => s.isEmpty || !(s.isPrefixOf b)) &&
  (b.tails.all fun s => s.isEmpty || !(s.isPrefixOf a)) &&
  !containsSub a b && !containsSub b a

theorem noOvl_parts {a b : List Char} (h : noOvl a b = true) :
    (∀ s ∈ a.tails, s = [] ∨ s.isPrefixOf b = false) ∧
    (∀ s ∈ b.tails, s = [] ∨ s.isPrefixOf a = false) ∧
    containsSub a b = false ∧ containsSub b a = false := by
  simp only [noOvl, Bool.and_eq_true, List.all_eq_true, Bool.or_eq_true,
    List.isEmpty_iff, Bool.not_eq_true'] at h
  tauto

theorem noOvl_sfx_a {a b s u v : List Char} (h : noOvl a b = true)
    (hs : a = u ++ s) (hne : s ≠ []) (hp : b = s ++ v) : False := by
  have h1 := (noOvl_parts h).1
  have hmem : s ∈ a.tails := (List.mem_tails s a).mpr ⟨u, hs.symm⟩
  rcases h1 s hmem with h' | h'
  · exact hne h'
  · rw [isPrefixOf_iff.mpr ⟨v, hp⟩] at h'
    simp at h'

theorem noOvl_sfx_b {a b s u v : List Char} (h : noOvl a b = true)
    (hs : b = u ++ s) (hne : s ≠ []) (hp : a = s ++ v) : False := by
  have h1 := (noOvl_parts h).2.1
  have hmem : s ∈ b.tails := (List.mem_tails s b).mpr ⟨u, hs.symm⟩
  rcases h1 s hmem with h' | h'
  · exact hne h'
  · rw [isPrefixOf_iff.mpr ⟨v, hp⟩] at h'
    simp at h'

theorem noOvl_not_occ_ab {a b : List Char} (h : noOvl a b = true) : ¬ Occ a b := by
  intro hocc
  have h1 := (noOvl_parts h).2.2.1
  rw [containsSub_iff.mpr hocc] at h1
  simp at h1

theorem noOvl_not_occ_ba {a b : List Char} (h : noOvl a b = true) : ¬ Occ b a := by
  intro hocc
  have h1 := (noOvl_parts h).2.2.2
  rw [containsSub_iff.mpr hocc] at h1
  simp at h1

/-- No nonempty proper suffix of `p` is a prefix of `p` (so occurrences of `p`
never overlap each other). -/
def selfFree (p : List Char) : Bool :=
  p.tails.all fun s => s.isEmpty || s.length == p.length || !(s.isPrefixOf p)

theorem selfFree_spec {p s u v : List Char} (h : selfFree p = true)
    (hs : p = u ++ s) (hne : s ≠ []) (hu : u ≠ []) (hp : p = s ++ v) : False := by
  have hmem : s ∈ p.tails := (List.mem_tails s p).mpr ⟨u, hs.symm⟩
  have h2 := List.all_eq_true.mp h s hmem
  rw [isPrefixOf_iff.mpr ⟨v, hp⟩] at h2
  have h3 : s = [] ∨ s.length = p.length := by
    simpa [Bool.or_eq_true, List.isEmpty_iff] using h2
  rcases h3 with h' | h'
  · exact hne h'
  · have hlen := congrArg List.length hs
    simp [List.length_append] at hlen
    have : u.length = 0 := by omega
    exact hu (List.eq_nil_of_length_eq_zero this)

/-! ### Overlapping occurrences force string overlaps -/

/-- An occurrence of `q` starting at or inside the span of `w` (and reaching
into it) makes a nonempty suffix of `w` a prefix of `q`, or puts `q` inside
`w`. -/
theorem overlap_within {x w y u q v : List Char}
    (he : x ++ w ++ y = u ++ q ++ v)
    (h1 : x.length ≤ u.length) (h2 : u.length < x.length + w.length) :
    (∃ s e d, s ≠ [] ∧ w = d ++ s ∧ q = s ++ e) ∨ Occ q w := by
  obtain ⟨δ, hδ1, hδ2⟩ := split_append (a := x) (b := w ++ y) (c := u) (d := q ++ v)
    (by simpa [List.append_assoc] using he) h1
  have hδlen : δ.length < w.length := by
    have := congrArg List.length hδ1
    simp at this
    omega
  obtain ⟨ρ, hρ1, hρ2⟩ := split_append hδ2.symm (by omega)
  have hρne : ρ ≠ [] := by
    intro hnil
    subst hnil
    have := congrArg List.length hρ1
    simp at this
    omega
  by_cases hq : ρ.length ≤ q.length
  · obtain ⟨e, he1, he2⟩ := split_append hρ2.symm hq
    exact Or.inl ⟨ρ, e, δ, hρne, hρ1, he1⟩
  · push_neg at hq
    obtain ⟨τ, hτ1, hτ2⟩ := split_append hρ2 (by omega)
    exact Or.inr ⟨δ, τ, by rw [hρ1, hτ1, List.append_assoc]⟩

/-- An occurrence of `q` starting strictly before the span of `w` and reaching
into it makes a nonempty proper suffix of `q` a prefix of `w`, or puts `w`
strictly inside `q` with text of `q` before it. -/
theorem overlap_before {x w y u q v : List Char}
    (he : x ++ w ++ y = u ++ q ++ v)
    (h1 : u.length < x.length) (h2 : x.length < u.length + q.length) :
    (∃ s e d, s ≠ [] ∧ s.length < q.length ∧ q = d ++ s ∧ d ≠ [] ∧ w = s ++ e) ∨
    (∃ d e, q = d ++ w ++ e ∧ d ≠ []) := by
  obtain ⟨δ, hδ1, hδ2⟩ := split_append (a := u) (b := q ++ v) (c := x) (d := w ++ y)
    (by simpa [List.append_assoc] using he.symm) (by omega)
  have hδne : δ ≠ [] := by
    intro hnil
    subst hnil
    have := congrArg List.length hδ1
    simp at this
    omega
  have hδlen : δ.length < q.length := by
    have := congrArg List.length hδ1
    simp at this
    omega
  obtain ⟨ρ, hρ1, hρ2⟩ := split_append hδ2.symm (by omega)
  have hρne : ρ ≠ [] := by
    intro hnil
    subst hnil
    have := congrArg List.length hρ1
    simp at this
    omega
  by_cases hw : ρ.length ≤ w.length
  · obtain ⟨e, he1, he2⟩ := split_append hρ2.symm hw
    refine Or.inl ⟨ρ, e, δ, hρne, ?_, hρ1, hδne, he1⟩
    have hl1 := congrArg List.length hρ1
    simp at hl1
    have hl2 : 0 < δ.length := List.length_pos.mpr hδne
    omega
  · push_neg at hw
    obtain ⟨τ, hτ1, hτ2⟩ := split_append hρ2 (by omega)
    exact Or.inr ⟨δ, τ, by rw [hρ1, hτ1, List.append_assoc], hδne⟩

/-- A character position inside the span of `w` holds a character of `w`. -/
theorem char_in_span {x w y u v : List Char} {c : Char}
    (he : x ++ w ++ y = u ++ c :: v)
    (h1 : x.length ≤ u.length) (h2 : u.length < x.length + w.length) : c ∈ w := by
  have he' : x ++ w ++ y = u ++ [c] ++ v := by simpa using he
  rcases overlap_within he' h1 h2 with ⟨s, e, d, hne, hw, hq⟩ | hocc
  · cases s with
    | nil => exact absurd rfl hne
    | cons a s =>
      have : a = c := by
        have h' := hq.symm
        simp only [List.cons_append, List.cons.injEq] at h'
        exact h'.1
      subst this
      rw [hw]
      simp
  · obtain ⟨d, e, hw⟩ := hocc
    rw [hw]
    simp

/-- The span of `w` inside the span of a part `b` of the text splits `b`
around `w`. -/
theorem span_inside {x w y u b v : List Char}
    (he : x ++ w ++ y = u ++ b ++ v)
    (h1 : u.length ≤ x.length) (h2 : x.length + w.length ≤ u.length + b.length) :
    ∃ b1 b2, b = b1 ++ w ++ b2 ∧ x = u ++ b1 ∧ y = b2 ++ v := by
  obtain ⟨b1, hb1, hb2⟩ := split_append (a := u) (b := b ++ v) (c := x) (d := w ++ y)
    (by simpa [List.append_assoc] using he.symm) h1
  have hb1len : b1.length = x.length - u.length := by
    have := congrArg List.length hb1
    simp at this
    omega
  obtain ⟨ρ, hρ1, hρ2⟩ := split_append hb2.symm (by omega)
  obtain ⟨b2, hc1, hc2⟩ := split_append hρ2 (by
    have := congrArg List.length hρ1
    simp at this
    omega)
  exact ⟨b1, b2, by rw [hρ1, hc1, List.append_assoc], hb1, hc2⟩

/-! ### Chunk decomposition of `replaceAll` -/

/-- `joinWith sep [s₀, s₁, …, sₙ] = s₀ ++ sep ++ s₁ ++ sep ++ … ++ sₙ`. -/
def joinWith (sep : List Char) : List (List Char) → List Char
  | [] => []
  | [s] => s
  | s :: ss => s ++ sep ++ joinWith sep ss

theorem joinWith_cons₂ (sep s a : List Char) (ss : List (List Char)) :
    joinWith sep (s :: a :: ss) = s ++ sep ++ joinWith sep (a :: ss) := rfl

theorem joinWith_head (sep s : List Char) (ss : List (List Char)) :
    ∃ z, joinWith sep (s :: ss) = s ++ z := by
  cases ss with
  | nil => exact ⟨[], by simp [joinWith]⟩
  | cons a ss => exact ⟨sep ++ joinWith sep (a :: ss), by simp [joinWith_cons₂]⟩

theorem joinWith_head_cons (sep : List Char) (c : Char) (s : List Char)
    (ss : List (List Char)) :
    joinWith sep ((c :: s) :: ss) = c :: joinWith sep (s :: ss) := by
  cases ss with
  | nil => rfl
  | cons a ss => simp [joinWith_cons₂]

theorem occ_of_front {p x : List Char} (h : ∃ v, x = p ++ v) : Occ p x := by
  obtain ⟨v, rfl⟩ := h
  exact ⟨[], v, rfl⟩

theorem occ_of_tail {p t : List Char} {c : Char} (h : Occ p t) : Occ p (c :: t) := by
  obtain ⟨u, v, rfl⟩ := h
  exact ⟨c :: u, v, rfl⟩

/-- The left-to-right scan of `replaceAll` splits the text into chunks
separated by the replaced occurrences; no chunk contains the pattern. -/
theorem replaceAll_chunks (p r : List Char) (hp : p ≠ []) :
    ∀ n t, t.length ≤ n → ∃ ss : List (List Char), ss ≠ [] ∧
      t = joinWith p ss ∧ replaceAll p r t = joinWith r ss ∧ ∀ s ∈ ss, ¬ Occ p s := by
  intro n
  induction n with
  | zero =>
    intro t ht
    have : t = [] := List.eq_nil_of_length_eq_zero (by omega)
    subst this
    refine ⟨[[]], by simp, rfl, by simp [replaceAll, joinWith], ?_⟩
    intro s hs
    simp at hs
    subst hs
    intro hocc
    exact hp (occ_nil_iff.mp hocc)
  | succ n ih =>
    intro t ht
    cases t with
    | nil =>
      refine ⟨[[]], by simp, rfl, by simp [replaceAll, joinWith], ?_⟩
      intro s hs
      simp at hs
      subst hs
      intro hocc
      exact hp (occ_nil_iff.mp hocc)
    | cons c t' =>
      rw [replaceAll]
      by_cases hpre : p.isPrefixOf (c :: t') = true
      · obtain ⟨v, hv⟩ := isPrefixOf_iff.mp hpre
        have hplen : 1 ≤ p.length := by
          cases p with
          | nil => exact absurd rfl hp
          | cons a b => simp
        have hvdrop : v = t'.drop (p.length - 1) := by
          have : ((c :: t').drop p.length) = t'.drop (p.length - 1) := by
            cases p with
            | nil => exact absurd rfl hp
            | cons a b => simp
          rw [← this, hv]
          simp
        have hrest : (t'.drop (p.length - 1)).length ≤ n := by
          have h1 := List.length_drop (p.length - 1) t'
          have h2 : (c :: t').length ≤ n + 1 := ht
          simp at h2
          omega
        obtain ⟨ss, hne, h1, h2, h3⟩ := ih (t'.drop (p.length - 1)) hrest
        refine ⟨[] :: ss, by simp, ?_, ?_, ?_⟩
        · cases ss with
          | nil => exact absurd rfl hne
          | cons s₀ ss' =>
            rw [joinWith_cons₂]
            simp only [List.nil_append]
            rw [← h1, ← hvdrop, hv]
        · rw [if_pos hpre]
          cases ss with
          | nil => exact absurd rfl hne
          | cons s₀ ss' =>
            rw [joinWith_cons₂]
            simp only [List.nil_append]
            rw [h2]
        · intro s hs
          rcases List.mem_cons.mp hs with rfl | hs'
          · intro hocc
            exact hp (occ_nil_iff.mp hocc)
          · exact h3 s hs'
      · obtain ⟨ss, hne, h1, h2, h3⟩ := ih t' (by simpa using Nat.le_of_succ_le_succ ht)
        cases ss with
        | nil => exact absurd rfl hne
        | cons s₀ ss' =>
          refine ⟨(c :: s₀) :: ss', by simp, ?_, ?_, ?_⟩
          · rw [joinWith_head_cons, ← h1]
          · rw [if_neg hpre, joinWith_head_cons, ← h2]
          · intro s hs
            rcases List.mem_cons.mp hs with rfl | hs'
            · intro hocc
              rcases occ_cons_cases hocc with ⟨v, hv⟩ | hocc'
              · obtain ⟨z, hz⟩ := joinWith_head p s₀ ss'
                have : c :: t' = p ++ (v ++ z) := by
                  rw [h1, hz] at *
                  have : (c :: s₀) ++ z = p ++ v ++ z := by rw [hv]
                  simpa [List.append_assoc] using this
                exact hpre (isPrefixOf_iff.mpr ⟨v ++ z, this⟩)
              · have : Occ p s₀ := hocc'
                exact h3 s₀ (by simp) this
            · exact h3 s (by simp [hs'])

/-- Every chunk occurs in the join. -/
theorem seg_occ_join {sep : List Char} {ss : List (List Char)} {s : List Char}
    (hs : s ∈ ss) : Occ s (joinWith sep ss) := by
  induction ss with
  | nil => simp at hs
  | cons a ss ih =>
    rcases List.mem_cons.mp hs with rfl | hs'
    · obtain ⟨z, hz⟩ := joinWith_head sep s ss
      exact ⟨[], z, by simpa using hz⟩
    · cases ss with
      | nil => simp at hs'
      | cons b ss' =>
        rw [joinWith_cons₂]
        exact occ_append_right _ (ih hs')

/-- No occurrence of `q` in a join whose separator cannot overlap `q` and
whose chunks are `q`-free. -/
theorem occ_join_free {q sep : List Char} (hno : noOvl q sep = true) :
    ∀ ss : List (List Char), (∀ s ∈ ss, ¬ Occ q s) → ¬ Occ q (joinWith sep ss) := by
  have hqne : q ≠ [] := by
    intro hq
    exact noOvl_not_occ_ab hno (by rw [hq]; exact ⟨[], sep, rfl⟩)
  intro ss
  induction ss with
  | nil =>
    intro _ hocc
    exact hqne (occ_nil_iff.mp (by simpa [joinWith] using hocc))
  | cons s ss ih =>
    intro hfree hocc
    cases ss with
    | nil => exact hfree s (by simp) (by simpa [joinWith] using hocc)
    | cons a ss' =>
      rw [joinWith_cons₂, List.append_assoc] at hocc
      rcases occ_append_cases hocc with h | h | ⟨q1, q2, hq, hq1, hq2, ⟨u, hu⟩, ⟨v, hv⟩⟩
      · exact hfree s (by simp) h
      · rcases occ_append_cases h with h' | h' | ⟨q1, q2, hq, hq1, hq2, ⟨u, hu⟩, ⟨v, hv⟩⟩
        · exact noOvl_not_occ_ab hno h'
        · exact ih (fun z hz => hfree z (by simp [hz])) h'
        · exact noOvl_sfx_b hno hu hq1 hq
      · by_cases hlen : q2.length ≤ sep.length
        · obtain ⟨m, hm1, hm2⟩ := split_append hv.symm hlen
          exact noOvl_sfx_a hno hq hq2 hm1
        · push_neg at hlen
          obtain ⟨m, hm1, hm2⟩ := split_append hv (by omega)
          exact noOvl_not_occ_ba hno ⟨q1, m, by rw [hq, hm1, List.append_assoc]⟩

/-- `replaceAll` creates no occurrence of a string that cannot overlap the
replacement. -/
theorem replaceAll_not_occ {p r q t : List Char} (hp : p ≠ [])
    (hno : noOvl q r = true) (ht : ¬ Occ q t) : ¬ Occ q (replaceAll p r t) := by
  obtain ⟨ss, hne, h1, h2, h3⟩ := replaceAll_chunks p r hp t.length t le_rfl
  rw [h2]
  refine occ_join_free hno ss ?_
  intro s hs hocc
  exact ht (occ_trans hocc (by rw [h1]; exact seg_occ_join hs))

/-- `replaceAll` keeps every occurrence of a string that cannot overlap the
pattern. -/
theorem replaceAll_occ {p r q t : List Char} (hp : p ≠ [])
    (hno : noOvl q p = true) (ht : Occ q t) : Occ q (replaceAll p r t) := by
  obtain ⟨ss, hne, h1, h2, h3⟩ := replaceAll_chunks p r hp t.length t le_rfl
  rw [h2]
  by_contra hnocc
  have : ∃ s ∈ ss, Occ q s := by
    by_contra hall
    push_neg at hall
    exact occ_join_free hno ss hall (by rw [← h1]; exact ht)
  obtain ⟨s, hs, hocc⟩ := this
  exact hnocc (occ_trans hocc (seg_occ_join hs))

/-- After one pass no occurrence of the pattern is left, provided the
replacement and the pattern cannot overlap. -/
theorem replaceAll_p_free {p r : List Char} (hp : p ≠ []) (hno : noOvl p r = true)
    (t : List Char) : ¬ Occ p (replaceAll p r t) := by
  obtain ⟨ss, hne, h1, h2, h3⟩ := replaceAll_chunks p r hp t.length t le_rfl
  rw [h2]
  exact occ_join_free hno ss h3

/-- A pattern-free text is untouched by `replaceAll`. -/
theorem replaceAll_id_of_free {p r t : List Char} (ht : ¬ Occ p t) :
    replaceAll p r t = t := by
  induction t with
  | nil => rw [replaceAll]
  | cons c t ih =>
    rw [replaceAll]
    have hnp : ¬ p.isPrefixOf (c :: t) = true := by
      intro hpre
      exact ht (occ_of_front (isPrefixOf_iff.mp hpre))
    rw [if_neg hnp, ih (fun h => ht (occ_of_tail h))]

/-! ### `replaceFirst` and insertions -/

theorem front_drop {p v t : List Char} {c : Char} (hp : p ≠ [])
    (hv : c :: t = p ++ v) : v = t.drop (p.length - 1) := by
  cases p with
  | nil => exact absurd rfl hp
  | cons a q =>
    simp only [List.cons_append, List.cons.injEq] at hv
    rw [hv.2]
    simp [List.drop_left]

/-- What `str.replace(old, new, 1)` does when `old` occurs: it rewrites the
first occurrence and nothing else. -/
theorem replaceFirst_spec {p r t : List Char} (hp : p ≠ []) (ht : Occ p t) :
    ∃ pre post, t = pre ++ p ++ post ∧ replaceFirst p r t = pre ++ r ++ post := by
  induction t with
  | nil => exact absurd (occ_nil_iff.mp ht) hp
  | cons c t ih =>
    by_cases hpre : p.isPrefixOf (c :: t) = true
    · obtain ⟨v, hv⟩ := isPrefixOf_iff.mp hpre
      refine ⟨[], v, by simpa using hv, ?_⟩
      rw [replaceFirst, if_pos hpre, ← front_drop hp hv]
      simp
    · rcases occ_cons_cases ht with ⟨v, hv⟩ | hocc
      · exact absurd (isPrefixOf_iff.mpr ⟨v, hv⟩) hpre
      · obtain ⟨pre, post, h1, h2⟩ := ih hocc
        exact ⟨c :: pre, post, by simp [h1], by rw [replaceFirst, if_neg hpre, h2]; simp⟩

/-- Inserting text at a boundary whose left side ends in a character not in
`q` keeps every occurrence of `q`. -/
theorem occ_insert {q x y ins : List Char} {c : Char}
    (hx : ∃ x', x = x' ++ [c]) (hc : c ∉ q) (hocc : Occ q (x ++ y)) :
    Occ q (x ++ ins ++ y) := by
  rcases occ_append_cases hocc with h | h | ⟨q1, q2, hq, hq1, hq2, ⟨u, hu⟩, ⟨v, hv⟩⟩
  · exact occ_append_left _ (occ_append_left _ h)
  · exact occ_append_right _ h
  · exfalso
    obtain ⟨x', rfl⟩ := hx
    rcases List.eq_nil_or_concat q1 with rfl | ⟨q1', d, rfl⟩
    · exact hq1 rfl
    · have hlast : d = c := by
        have h1 : (u ++ q1') ++ [d] = x' ++ [c] := by simpa [List.append_assoc] using hu.symm
        have := congrArg List.getLast? h1
        simpa [List.getLast?_concat] using this
      subst hlast
      exact hc (by rw [hq]; simp)

/-! ### The five rules as a pipeline -/

/-- The loop over `replacements` (lines 70-71), over any rule list. -/
def applyRules (rs : List (List Char × List Char)) (t : List Char) : List Char :=
  rs.foldl (fun acc pr => replaceAll pr.1 pr.2 acc) t

theorem substStep_eq (t : List Char) : substStep t = applyRules rules t := rfl

theorem applyRules_cons (pr : List Char × List Char) (rs : List (List Char × List Char))
    (t : List Char) : applyRules (pr :: rs) t = applyRules rs (replaceAll pr.1 pr.2 t) := rfl

theorem applyRules_append (rs1 rs2 : List (List Char × List Char)) (t : List Char) :
    applyRules (rs1 ++ rs2) t = applyRules rs2 (applyRules rs1 t) := by
  simp [applyRules, List.foldl_append]

theorem applyRules_not_occ {q : List Char} :
    ∀ (rs : List (List Char × List Char)) (t : List Char),
      (∀ pr ∈ rs, pr.1 ≠ [] ∧ noOvl q pr.2 = true) → ¬ Occ q t →
      ¬ Occ q (applyRules rs t) := by
  intro rs
  induction rs with
  | nil => intro t _ ht; exact ht
  | cons pr rs ih =>
    intro t h ht
    rw [applyRules_cons]
    have hpr := h pr (by simp)
    exact ih _ (fun z hz => h z (by simp [hz]))
      (replaceAll_not_occ hpr.1 hpr.2 ht)

theorem applyRules_occ {q : List Char} :
    ∀ (rs : List (List Char × List Char)) (t : List Char),
      (∀ pr ∈ rs, pr.1 ≠ [] ∧ noOvl q pr.1 = true) → Occ q t →
      Occ q (applyRules rs t) := by
  intro rs
  induction rs with
  | nil => intro t _ ht; exact ht
  | cons pr rs ih =>
    intro t h ht
    rw [applyRules_cons]
    have hpr := h pr (by simp)
    exact ih _ (fun z hz => h z (by simp [hz]))
      (replaceAll_occ hpr.1 hpr.2 ht)

theorem applyRules_id {rs : List (List Char × List Char)} {t : List Char}
    (h : ∀ pr ∈ rs, ¬ Occ pr.1 t) : applyRules rs t = t := by
  induction rs with
  | nil => rfl
  | cons pr rs ih =>
    rw [applyRules_cons, replaceAll_id_of_free (h pr (by simp))]
    exact ih (fun z hz => h z (by simp [hz]))

/-- No rule pattern survives in the output of the substitution step. -/
theorem substStep_pat_free (t : List Char) :
    ∀ pr ∈ rules, ¬ Occ pr.1 (substStep t) := by
  intro pr hpr
  rw [substStep_eq]
  simp only [rules, List.mem_cons, List.not_mem_nil, or_false] at hpr
  rcases hpr with rfl | rfl | rfl | rfl | rfl
  · have : rules = [] ++ ("console.log(".data, "this.debug.log(".data) ::
        [("console.warn(".data, "this.debug.warn(".data),
         ("console.error(".data, "this.debug.error(".data),
         ("console.info(".data, "this.debug.info(".data),
         ("console.debug(".data, "this.debug.debug(".data)] := by rfl
    rw [this, applyRules_append, applyRules_cons]
    exact applyRules_not_occ _ _ (by decide) (replaceAll_p_free (by decide) (by decide) _)
  · have : rules = [("console.log(".data, "this.debug.log(".data)] ++
        ("console.warn(".data, "this.debug.warn(".data) ::
        [("console.error(".data, "this.debug.error(".data),
         ("console.info(".data, "this.debug.info(".data),
         ("console.debug(".data, "this.debug.debug(".data)] := by rfl
    rw [this, applyRules_append, applyRules_cons]
    exact applyRules_not_occ _ _ (by decide) (replaceAll_p_free (by decide) (by decide) _)
  · have : rules = [("console.log(".data, "this.debug.log(".data),
        ("console.warn(".data, "this.debug.warn(".data)] ++
        ("console.error(".data, "this.debug.error(".data) ::
        [("console.info(".data, "this.debug.info(".data),
         ("console.debug(".data, "this.debug.debug(".data)] := by rfl
    rw [this, applyRules_append, applyRules_cons]
    exact applyRules_not_occ _ _ (by decide) (replaceAll_p_free (by decide) (by decide) _)
  · have : rules = [("console.log(".data, "this.debug.log(".data),
        ("console.warn(".data, "this.debug.warn(".data),
        ("console.error(".data, "this.debug.error(".data)] ++
        ("console.info(".data, "this.debug.info(".data) ::
        [("console.debug(".data, "this.debug.debug(".data)] := by rfl
    rw [this, applyRules_append, applyRules_cons]
    exact applyRules_not_occ _ _ (by decide) (replaceAll_p_free (by decide) (by decide) _)
  · have : rules = [("console.log(".data, "this.debug.log(".data),
        ("console.warn(".data, "this.debug.warn(".data),
        ("console.error(".data, "this.debug.error(".data),
        ("console.info(".data, "this.debug.info(".data)] ++
        ("console.debug(".data, "this.debug.debug(".data) :: [] := by rfl
    rw [this, applyRules_append, applyRules_cons]
    exact applyRules_not_occ _ _ (by decide) (replaceAll_p_free (by decide) (by decide) _)

/-- The substitution step is idempotent. -/
theorem substStep_idem (t : List Char) : substStep (substStep t) = substStep t := by
  have h := substStep_pat_free t
  calc substStep (substStep t) = applyRules rules (substStep t) := rfl
    _ = substStep t := applyRules_id h

/-! ### Shape of the constructor-pattern match -/

/-- The text a constructor-pattern match consists of: the literal head, the
parenthesis-free parameter span, `)`, whitespace, `{`, the brace-free span,
and the superclass call. -/
def ctorShape (A W B : List Char) : List Char :=
  CTOR ++ A ++ ')' :: (W ++ '\x7b' :: (B ++ SUPER))

/-- The side conditions of the match parts. -/
def ctorConds (A W B : List Char) : Prop :=
  ')' ∉ A ∧ (∀ c ∈ W, isWs c = true) ∧ '\x7d' ∉ B

/-- Some constructor-with-super pattern occurs in the text. -/
def CtorOcc (t : List Char) : Prop :=
  ∃ u A W B v, t = u ++ ctorShape A W B ++ v ∧ ctorConds A W B

theorem drop_takeWhile_len (f : Char → Bool) (l : List Char) :
    l.drop (l.takeWhile f).length = l.dropWhile f := by
  have h := List.takeWhile_append_dropWhile f l
  calc l.drop (l.takeWhile f).length
      = (l.takeWhile f ++ l.dropWhile f).drop (l.takeWhile f).length := by rw [h]
    _ = l.dropWhile f := List.drop_left _ _

theorem takeWhile_append_all {f : Char → Bool} {a : List Char} (b : List Char)
    (h : ∀ c ∈ a, f c = true) : (a ++ b).takeWhile f = a ++ b.takeWhile f := by
  induction a with
  | nil => simp
  | cons c a ih =>
    have hc := h c (by simp)
    simp [List.takeWhile_cons, hc, ih (fun d hd => h d (by simp [hd]))]

theorem takeWhile_cons_false {f : Char → Bool} {d : Char} (b : List Char)
    (h : f d = false) : (d :: b).takeWhile f = [] := by
  simp [List.takeWhile_cons, h]

theorem charIdx_some {c : Char} : ∀ {l : List Char} {a : Nat}, charIdx c l = some a →
    ∃ A l', l = A ++ c :: l' ∧ A.length = a ∧ c ∉ A := by
  intro l
  induction l with
  | nil => intro a h; simp [charIdx] at h
  | cons d t ih =>
    intro a h
    rw [charIdx] at h
    by_cases hd : d = c
    · rw [if_pos hd] at h
      cases h
      exact ⟨[], t, by simp [hd], rfl, by simp⟩
    · rw [if_neg hd] at h
      cases ha : charIdx c t with
      | none => simp [ha] at h
      | some k =>
        simp only [ha, Option.map_some', Option.some.injEq] at h
        obtain ⟨A, l', h1, h2, h3⟩ := ih ha
        refine ⟨d :: A, l', by simp [h1], by simp [h2]; omega, ?_⟩
        intro hmem
        rcases List.mem_cons.mp hmem with hc | hc
        · exact hd hc.symm
        · exact h3 hc

theorem charIdx_concat {c : Char} {A : List Char} (l' : List Char) (h : c ∉ A) :
    charIdx c (A ++ c :: l') = some A.length := by
  induction A with
  | nil => simp [charIdx]
  | cons d A ih =>
    have hd : d ≠ c := by
      intro hdc
      exact h (by simp [hdc])
    have ih' := ih (fun hc => h (by simp [hc]))
    simp [charIdx, if_neg hd, ih']

theorem lastOccEnd_exists {p : List Char} (hp : p ≠ []) :
    ∀ {l : List Char}, Occ p l → ∃ e, lastOccEnd p l = some e := by
  intro l
  induction l with
  | nil => intro h; exact absurd (occ_nil_iff.mp h) hp
  | cons c t ih =>
    intro h
    rw [lastOccEnd]
    cases ht : lastOccEnd p t with
    | some k => exact ⟨k + 1, rfl⟩
    | none =>
      rcases occ_cons_cases h with ⟨v, hv⟩ | hocc
      · rw [isPrefixOf_iff.mpr ⟨v, hv⟩]
        exact ⟨p.length, rfl⟩
      · obtain ⟨e, he⟩ := ih hocc
        rw [ht] at he
        cases he

theorem lastOccEnd_spec {p : List Char} (hp : p ≠ []) :
    ∀ {l : List Char} {e : Nat}, lastOccEnd p l = some e →
      ∃ B l', l = B ++ p ++ l' ∧ e = B.length + p.length ∧
        ∀ B' l₂, l = B' ++ p ++ l₂ → B'.length ≤ B.length := by
  intro l
  induction l with
  | nil => intro e h; rw [lastOccEnd] at h; cases h
  | cons c t ih =>
    intro e h
    rw [lastOccEnd] at h
    cases ht : lastOccEnd p t with
    | some k =>
      rw [ht] at h
      simp only [Option.some.injEq] at h
      obtain ⟨B, l', h1, h2, h3⟩ := ih ht
      refine ⟨c :: B, l', by simp [h1], by simp only [List.length_cons]; omega, ?_⟩
      intro B' l₂ hB'
      cases B' with
      | nil => simp
      | cons d B'' =>
        simp only [List.cons_append, List.cons.injEq] at hB'
        have := h3 B'' l₂ hB'.2
        simp
        omega
    | none =>
      rw [ht] at h
      by_cases hpre : p.isPrefixOf (c :: t) = true
      · rw [if_pos hpre] at h
        simp only [Option.some.injEq] at h
        obtain ⟨v, hv⟩ := isPrefixOf_iff.mp hpre
        refine ⟨[], v, by simpa using hv, by simp [← h], ?_⟩
        intro B' l₂ hB'
        cases B' with
        | nil => simp
        | cons d B'' =>
          exfalso
          simp only [List.cons_append, List.cons.injEq] at hB'
          obtain ⟨e', he'⟩ := lastOccEnd_exists hp ⟨B'', l₂, hB'.2⟩
          rw [ht] at he'
          cases he'
      · rw [if_neg hpre] at h
        cases h

theorem dropWhile_head_false {f : Char → Bool} :
    ∀ {l : List Char} {d : Char} {l' : List Char}, l.dropWhile f = d :: l' → f d = false := by
  intro l
  induction l with
  | nil => intro d l' h; cases h
  | cons c t ih =>
    intro d l' h
    rw [List.dropWhile_cons] at h
    by_cases hc : f c = true
    · rw [if_pos hc] at h; exact ih h
    · rw [if_neg hc] at h
      cases h
      simpa using hc

/-- A successful anchored match has exactly the `ctorShape` structure, and its
brace-free span ends at the last `super();` before the first `}`. -/
theorem ctorMatchLen_some {s : List Char} {n : Nat} (h : ctorMatchLen s = some n) :
    ∃ A W B v, s = ctorShape A W B ++ v ∧ ctorConds A W B ∧
      n = (ctorShape A W B).length ∧
      ¬ ∃ B2 rest, v = B2 ++ SUPER ++ rest ∧ '\x7d' ∉ B2 := by
  rw [ctorMatchLen] at h
  split at h
  case isFalse => cases h
  case isTrue hpre =>
  simp only [] at h
  split at h
  case h_1 => cases h
  case h_2 a hci =>
  split at h
  case h_2 => cases h
  case h_1 c0 s3 hdrop =>
  split at h
  case isFalse => cases h
  case isTrue hc0 =>
  subst hc0
  split at h
  case h_2 => cases h
  case h_1 e hlast =>
  simp only [Option.some.injEq] at h
  -- structure of the parameter span
  obtain ⟨A, z, hz, hAlen, hAnotin⟩ := charIdx_some hci
  obtain ⟨s1, hs1⟩ := isPrefixOf_iff.mp hpre
  have hs1d : s.drop 12 = s1 := by
    have hlen : CTOR.length = 12 := rfl
    rw [hs1, ← hlen]
    exact List.drop_left _ _
  have hz1 : s1 = A ++ ')' :: z := by rw [← hs1d, hz]
  have hzdrop : (s.drop 12).drop (a + 1) = z := by
    rw [hs1d, hz1, ← hAlen]
    have h2 : A ++ ')' :: z = (A ++ [')']) ++ z := by simp
    have hlen2 : (A ++ [')']).length = A.length + 1 := by simp
    rw [h2, ← hlen2]
    exact List.drop_left _ _
  rw [hzdrop] at hdrop
  rw [hzdrop] at h
  -- structure of the whitespace span
  have hwdrop : z.drop (z.takeWhile isWs).length = z.dropWhile isWs :=
    drop_takeWhile_len _ _
  rw [hwdrop] at hdrop
  have hzsplit : z = z.takeWhile isWs ++ '\x7b' :: s3 := by
    rw [← hdrop]
    exact (List.takeWhile_append_dropWhile isWs z).symm
  have hWws : ∀ c ∈ z.takeWhile isWs, isWs c = true := fun c hc =>
    List.mem_takeWhile_imp hc
  -- structure of the brace-free span
  obtain ⟨B, F', hF, helen, hmax⟩ := lastOccEnd_spec (p := SUPER) (by decide) hlast
  have hBnotin : '\x7d' ∉ B := by
    intro hmem
    have : '\x7d' ∈ s3.takeWhile (· ≠ '\x7d') := by
      rw [hF]
      simp [hmem]
    have := List.mem_takeWhile_imp this
    simp at this
  have hs3split : s3 = B ++ SUPER ++ (F' ++ s3.dropWhile (· ≠ '\x7d')) := by
    have h1 := List.takeWhile_append_dropWhile (fun c => c ≠ '\x7d') s3
    calc s3 = s3.takeWhile (· ≠ '\x7d') ++ s3.dropWhile (· ≠ '\x7d') := h1.symm
      _ = (B ++ SUPER ++ F') ++ s3.dropWhile (· ≠ '\x7d') := by rw [← hF]
      _ = B ++ SUPER ++ (F' ++ s3.dropWhile (· ≠ '\x7d')) := by simp [List.append_assoc]
  refine ⟨A, z.takeWhile isWs, B, F' ++ s3.dropWhile (· ≠ '\x7d'), ?_, ⟨hAnotin, hWws, hBnotin⟩, ?_, ?_⟩
  · -- s = ctorShape ++ v
    calc s = CTOR ++ s1 := hs1
      _ = CTOR ++ (A ++ ')' :: z) := by rw [hz1]
      _ = CTOR ++ (A ++ ')' :: (z.takeWhile isWs ++ '\x7b' :: s3)) := by rw [← hzsplit]
      _ = CTOR ++ (A ++ ')' :: (z.takeWhile isWs ++ '\x7b' ::
            (B ++ SUPER ++ (F' ++ s3.dropWhile (· ≠ '\x7d'))))) := by rw [← hs3split]
      _ = ctorShape A (z.takeWhile isWs) B ++ (F' ++ s3.dropWhile (· ≠ '\x7d')) := by
            simp [ctorShape, List.append_assoc]
  · -- the length
    have hsuper : SUPER.length = 8 := rfl
    simp only [ctorShape, List.length_append, List.length_cons, hsuper]
    have hC : CTOR.length = 12 := rfl
    rw [hC]
    omega
  · -- lastness of the chosen super();
    rintro ⟨B2, rest, hv, hB2⟩
    by_cases hcmp : (B2 ++ SUPER).length ≤ F'.length
    · obtain ⟨m, hm1, hm2⟩ := split_append
        (a := B2 ++ SUPER) (b := rest) (c := F') (d := s3.dropWhile (· ≠ '\x7d'))
        (by simpa [List.append_assoc] using hv.symm) hcmp
      have : s3.takeWhile (· ≠ '\x7d') = (B ++ SUPER ++ B2) ++ SUPER ++ m := by
        rw [hF, hm1]
        simp [List.append_assoc]
      have hle := hmax (B ++ SUPER ++ B2) m this
      simp at hle
      exact absurd hle.1 (by decide)
    · push_neg at hcmp
      rw [List.length_append] at hcmp
      obtain ⟨m, hm1, hm2⟩ := split_append
        (a := F') (b := s3.dropWhile (· ≠ '\x7d')) (c := B2 ++ SUPER) (d := rest)
        (by simpa [List.append_assoc] using hv) (by simp [List.length_append]; omega)
      have hmne : m ≠ [] := by
        intro hnil
        subst hnil
        have := congrArg List.length hm1
        simp at this
        omega
      cases hD : s3.dropWhile (· ≠ '\x7d') with
      | nil =>
        rw [hD] at hm2
        exact hmne (List.append_eq_nil.mp hm2.symm).1
      | cons d D' =>
        have hd : (d ≠ '\x7d') = false := by
          simpa using dropWhile_head_false hD
        have hdval : d = '\x7d' := by simpa using hd
        rw [hD] at hm2
        cases m with
        | nil => exact hmne rfl
        | cons m0 m' =>
          have hm0 : m0 = d := by
            have := hm2
            simp only [List.cons_append, List.cons.injEq] at this
            exact this.1.symm
          have : '\x7d' ∈ B2 ++ SUPER := by
            rw [hm1, hm0, hdval]
            simp
          rcases List.mem_append.mp this with hmem | hmem
          · exact hB2 hmem
          · have : ('\x7d' : Char) ∉ SUPER := by decide
            exact this hmem

/-- Whenever a `ctorShape` sits at the front of `s`, the anchored match
succeeds. -/
theorem ctorMatchLen_of_shape {A W B v : List Char} (hc : ctorConds A W B) :
    ∃ n, ctorMatchLen (ctorShape A W B ++ v) = some n := by
  obtain ⟨hA, hW, hB⟩ := hc
  have hnorm : ctorShape A W B ++ v =
      CTOR ++ (A ++ ')' :: (W ++ '\x7b' :: (B ++ SUPER ++ v))) := by
    simp [ctorShape, List.append_assoc]
  have hdrop12 : (ctorShape A W B ++ v).drop 12 =
      A ++ ')' :: (W ++ '\x7b' :: (B ++ SUPER ++ v)) := by
    rw [hnorm]
    have hlen : CTOR.length = 12 := rfl
    rw [← hlen]
    exact List.drop_left _ _
  rw [ctorMatchLen]
  rw [if_pos (isPrefixOf_iff.mpr ⟨_, hnorm⟩)]
  rw [hdrop12, charIdx_concat _ hA]
  have hdropA : (A ++ ')' :: (W ++ '\x7b' :: (B ++ SUPER ++ v))).drop (A.length + 1) =
      W ++ '\x7b' :: (B ++ SUPER ++ v) := by
    have h2 : A ++ ')' :: (W ++ '\x7b' :: (B ++ SUPER ++ v)) =
        (A ++ [')']) ++ (W ++ '\x7b' :: (B ++ SUPER ++ v)) := by simp
    have hlen2 : (A ++ [')']).length = A.length + 1 := by simp
    rw [h2, ← hlen2]
    exact List.drop_left _ _
  simp only [hdropA]
  have htW : (W ++ '\x7b' :: (B ++ SUPER ++ v)).takeWhile isWs = W := by
    rw [takeWhile_append_all _ hW, takeWhile_cons_false _ (by decide)]
    simp
  rw [htW]
  have hdW : (W ++ '\x7b' :: (B ++ SUPER ++ v)).drop W.length =
      '\x7b' :: (B ++ SUPER ++ v) := List.drop_left _ _
  rw [hdW]
  simp only [if_true]
  have hF : (B ++ SUPER ++ v).takeWhile (· ≠ '\x7d') =
      B ++ SUPER ++ v.takeWhile (· ≠ '\x7d') := by
    rw [List.append_assoc, takeWhile_append_all _ (fun c hc => by
      simp only [decide_eq_true_eq]
      intro hceq
      exact hB (hceq ▸ hc)), takeWhile_append_all _ (by decide)]
    simp [List.append_assoc]
  rw [hF]
  obtain ⟨e, he⟩ := lastOccEnd_exists (p := SUPER) (by decide)
    ⟨B, v.takeWhile (· ≠ '\x7d'), rfl⟩
  rw [he]
  exact ⟨_, rfl⟩

/-- A text with no constructor-with-super pattern never matches anywhere. -/
theorem ctorSearch_none_of_not {t : List Char} (h : ¬ CtorOcc t) :
    ctorSearch t = none := by
  induction t with
  | nil => rfl
  | cons c t ih =>
    rw [ctorSearch]
    cases hm : ctorMatchLen (c :: t) with
    | some n =>
      exfalso
      obtain ⟨A, W, B, v, he, hc, _, _⟩ := ctorMatchLen_some hm
      exact h ⟨[], A, W, B, v, by simpa using he, hc⟩
    | none =>
      refine ih ?_
      intro ⟨u, A, W, B, v, he, hc⟩
      exact h ⟨c :: u, A, W, B, v, by simp [he], hc⟩

/-- The search result: an occurrence of the full match shape, and nothing of a
further `super();` before the next `}`. -/
theorem ctorSearch_some_spec {t m : List Char} (h : ctorSearch t = some m) :
    ∃ u v A W B, t = u ++ m ++ v ∧ m = ctorShape A W B ∧ ctorConds A W B ∧
      ¬ ∃ B2 rest, v = B2 ++ SUPER ++ rest ∧ '\x7d' ∉ B2 := by
  induction t with
  | nil => cases h
  | cons c t ih =>
    rw [ctorSearch] at h
    cases hm : ctorMatchLen (c :: t) with
    | some n =>
      rw [hm] at h
      simp only [Option.some.injEq] at h
      obtain ⟨A, W, B, v, he, hc, hn, hlast⟩ := ctorMatchLen_some hm
      refine ⟨[], v, A, W, B, ?_, ?_, hc, hlast⟩
      · rw [← h, he, hn]
        simp [List.take_left]
      · rw [← h, he, hn]
        exact List.take_left _ _
    | none =>
      rw [hm] at h
      obtain ⟨u, v, A, W, B, h1, h2, h3, h4⟩ := ih h
      exact ⟨c :: u, v, A, W, B, by simp [h1], h2, h3, h4⟩

/-- `ctorSearch` returns a match exactly when a constructor-with-super
pattern occurs. -/
theorem ctorSearch_none_iff {t : List Char} : ctorSearch t = none ↔ ¬ CtorOcc t := by
  constructor
  · intro h hocc
    obtain ⟨u, A, W, B, v, he, hc⟩ := hocc
    subst he
    -- search over u ++ shape ++ v cannot be none: induction over u
    induction u with
    | nil =>
      simp only [List.nil_append] at h
      obtain ⟨n, hn⟩ := ctorMatchLen_of_shape (v := v) hc
      cases hshape : ctorShape A W B ++ v with
      | nil =>
        have := congrArg List.length hshape
        simp [ctorShape] at this
      | cons d t' =>
        rw [hshape] at hn h
        rw [ctorSearch, hn] at h
        cases h
    | cons d u ihu =>
      rw [List.cons_append, List.cons_append, ctorSearch] at h
      cases hm : ctorMatchLen (d :: (u ++ ctorShape A W B ++ v)) with
      | some n => rw [hm] at h; cases h
      | none =>
        rw [hm] at h
        exact ihu h
  · intro h
    exact ctorSearch_none_of_not h

/-! ### Splicing inert text cannot create a constructor match -/

/-- Replacing one span `w` by `w'` inside a text: if `w` cannot overlap the
fixed parts of a constructor match, contains none of the structural
characters, and is not pure whitespace, then any match over `x ++ w ++ y`
yields a match over `x ++ w' ++ y` (the span can only sit inside the
parameter span, the brace-free span, or outside the match). -/
theorem ctor_swap {w w' : List Char}
    (hwne : w ≠ [])
    (hCw : noOvl CTOR w = true) (hSw : noOvl SUPER w = true)
    (hpar : ')' ∉ w) (hob : '\x7b' ∉ w)
    (hnw : ∃ c ∈ w, isWs c = false)
    (hpar' : ')' ∉ w') (hcb' : '\x7d' ∉ w')
    {x y : List Char} (h : CtorOcc (x ++ w ++ y)) : CtorOcc (x ++ w' ++ y) := by
  obtain ⟨u, A, W, B, v, hT, hA, hW, hB⟩ := h
  have hwpos : 0 < w.length := List.length_pos.mpr hwne
  -- the spans, by their left end offsets
  have hDC : x ++ w ++ y = u ++ CTOR ++ ((A ++ ')' :: (W ++ '\x7b' :: (B ++ SUPER))) ++ v) := by
    rw [hT]; simp [ctorShape, List.append_assoc]
  have hDA : x ++ w ++ y = (u ++ CTOR) ++ A ++ (')' :: (W ++ '\x7b' :: (B ++ SUPER)) ++ v) := by
    rw [hT]; simp [ctorShape, List.append_assoc]
  have hDp : x ++ w ++ y = (u ++ CTOR ++ A) ++ ')' :: ((W ++ '\x7b' :: (B ++ SUPER)) ++ v) := by
    rw [hT]; simp [ctorShape, List.append_assoc]
  have hDW : x ++ w ++ y = (u ++ CTOR ++ A ++ [')']) ++ W ++ ('\x7b' :: (B ++ SUPER) ++ v) := by
    rw [hT]; simp [ctorShape, List.append_assoc]
  have hDo : x ++ w ++ y = (u ++ CTOR ++ A ++ [')'] ++ W) ++ '\x7b' :: ((B ++ SUPER) ++ v) := by
    rw [hT]; simp [ctorShape, List.append_assoc]
  have hDB : x ++ w ++ y = (u ++ CTOR ++ A ++ [')'] ++ W ++ ['\x7b']) ++ B ++ (SUPER ++ v) := by
    rw [hT]; simp [ctorShape, List.append_assoc]
  have hDS : x ++ w ++ y = (u ++ CTOR ++ A ++ [')'] ++ W ++ ['\x7b'] ++ B) ++ SUPER ++ v := by
    rw [hT]; simp [ctorShape, List.append_assoc]
  have hDu : x ++ w ++ y = [] ++ u ++ (ctorShape A W B ++ v) := by
    rw [hT]; simp
  have hLtot : x.length + w.length + y.length =
      u.length + 12 + A.length + 1 + W.length + 1 + B.length + 8 + v.length := by
    have := congrArg List.length hT
    simp [ctorShape, List.length_append, List.length_cons] at this
    have h1 : CTOR.length = 12 := rfl
    have h2 : SUPER.length = 8 := rfl
    omega
  have hDv : x ++ w ++ y = (u ++ ctorShape A W B) ++ v ++ [] := by
    rw [hT]; simp [List.append_assoc]
  -- length bookkeeping
  have hL1 : (u ++ CTOR).length = u.length + 12 := by simp [List.length_append]; rfl
  have hL2 : (u ++ CTOR ++ A).length = u.length + 12 + A.length := by
    simp [List.length_append]
    have : CTOR.length = 12 := rfl
    omega
  have hL3 : (u ++ CTOR ++ A ++ [')']).length = u.length + 12 + A.length + 1 := by
    simp [List.length_append]
    have : CTOR.length = 12 := rfl
    omega
  have hL4 : (u ++ CTOR ++ A ++ [')'] ++ W).length =
      u.length + 12 + A.length + 1 + W.length := by
    simp [List.length_append]
    have : CTOR.length = 12 := rfl
    omega
  have hL5 : (u ++ CTOR ++ A ++ [')'] ++ W ++ ['\x7b']).length =
      u.length + 12 + A.length + 1 + W.length + 1 := by
    simp [List.length_append]
    have : CTOR.length = 12 := rfl
    omega
  have hL6 : (u ++ CTOR ++ A ++ [')'] ++ W ++ ['\x7b'] ++ B).length =
      u.length + 12 + A.length + 1 + W.length + 1 + B.length := by
    simp [List.length_append]
    have : CTOR.length = 12 := rfl
    omega
  have hL7 : (u ++ ctorShape A W B).length =
      u.length + 12 + A.length + 1 + W.length + 1 + B.length + 8 := by
    simp [ctorShape, List.length_append]
    have h1 : CTOR.length = 12 := rfl
    have h2 : SUPER.length = 8 := rfl
    omega
  -- the span cannot intersect the fixed parts
  have mC : x.length + w.length ≤ u.length ∨ u.length + 12 ≤ x.length := by
    by_contra hcon
    push_neg at hcon
    obtain ⟨h1, h2⟩ := hcon
    by_cases hcase : x.length ≤ u.length
    · rcases overlap_within hDC hcase h1 with ⟨s, e, d, hne, hws, hqs⟩ | hocc
      · exact noOvl_sfx_b hCw hws hne hqs
      · exact noOvl_not_occ_ab hCw hocc
    · push_neg at hcase
      have h2' : x.length < u.length + CTOR.length := by
        have : CTOR.length = 12 := rfl
        omega
      rcases overlap_before hDC hcase h2' with ⟨s, e, d, hne, _, hqs, _, hws⟩ | ⟨d, e, hocc, _⟩
      · exact noOvl_sfx_a hCw hqs hne hws
      · exact noOvl_not_occ_ba hCw ⟨d, e, hocc⟩
  have mS : x.length + w.length ≤ u.length + 12 + A.length + 1 + W.length + 1 + B.length ∨
      u.length + 12 + A.length + 1 + W.length + 1 + B.length + 8 ≤ x.length := by
    by_contra hcon
    push_neg at hcon
    obtain ⟨h1, h2⟩ := hcon
    by_cases hcase : x.length ≤ (u ++ CTOR ++ A ++ [')'] ++ W ++ ['\x7b'] ++ B).length
    · rcases overlap_within hDS hcase (by rw [hL6]; omega) with
        ⟨s, e, d, hne, hws, hqs⟩ | hocc
      · exact noOvl_sfx_b hSw hws hne hqs
      · exact noOvl_not_occ_ab hSw hocc
    · push_neg at hcase
      have h2' : x.length < (u ++ CTOR ++ A ++ [')'] ++ W ++ ['\x7b'] ++ B).length +
          SUPER.length := by
        rw [hL6]
        have : SUPER.length = 8 := rfl
        omega
      rcases overlap_before hDS hcase h2' with ⟨s, e, d, hne, _, hqs, _, hws⟩ | ⟨d, e, hocc, _⟩
      · exact noOvl_sfx_a hSw hqs hne hws
      · exact noOvl_not_occ_ba hSw ⟨d, e, hocc⟩
  have mp : x.length + w.length ≤ u.length + 12 + A.length ∨
      u.length + 12 + A.length + 1 ≤ x.length := by
    by_contra hcon
    push_neg at hcon
    obtain ⟨h1, h2⟩ := hcon
    have hin : (')' : Char) ∈ w := char_in_span hDp (by rw [hL2]; omega) (by rw [hL2]; omega)
    exact hpar hin
  have mo : x.length + w.length ≤ u.length + 12 + A.length + 1 + W.length ∨
      u.length + 12 + A.length + 1 + W.length + 1 ≤ x.length := by
    by_contra hcon
    push_neg at hcon
    obtain ⟨h1, h2⟩ := hcon
    have hin : ('\x7b' : Char) ∈ w := char_in_span hDo (by rw [hL4]; omega) (by rw [hL4]; omega)
    exact hob hin
  have mW : x.length + w.length ≤ u.length + 12 + A.length + 1 ∨
      u.length + 12 + A.length + 1 + W.length ≤ x.length := by
    by_contra hcon
    push_neg at hcon
    obtain ⟨h1, h2⟩ := hcon
    -- the span would have to sit inside the whitespace run
    have hsub : u.length + 12 + A.length + 1 ≤ x.length ∧
        x.length + w.length ≤ u.length + 12 + A.length + 1 + W.length := by
      constructor
      · rcases mp with hm | hm
        · omega
        · omega
      · rcases mo with hm | hm
        · omega
        · omega
    obtain ⟨W1, W2, hWsplit, _, _⟩ := span_inside hDW (by rw [hL3]; omega) (by rw [hL3]; omega)
    obtain ⟨c, hcmem, hcws⟩ := hnw
    have : isWs c = true := hW c (by rw [hWsplit]; simp [hcmem])
    rw [this] at hcws
    cases hcws
  -- place the span
  rcases mC with hmC | hmC
  · -- inside u
    obtain ⟨u1, u2, hu, hx, hy⟩ := span_inside hDu (by simp) (by simpa using hmC)
    refine ⟨u1 ++ w' ++ u2, A, W, B, v, ?_, hA, hW, hB⟩
    simp only [List.nil_append] at hx hy
    rw [hx, hy]
    simp [List.append_assoc]
  · rcases mp with hmp | hmp
    · -- inside the parameter span A
      have hbounds : (u ++ CTOR).length ≤ x.length ∧
          x.length + w.length ≤ (u ++ CTOR).length + A.length := by
        rw [hL1]
        omega
      obtain ⟨A1, A2, hAsplit, hx, hy⟩ := span_inside hDA hbounds.1 hbounds.2
      refine ⟨u, A1 ++ w' ++ A2, W, B, v, ?_, ?_, hW, hB⟩
      · rw [hx, hy, ctorShape]
        simp [List.append_assoc]
      · intro hmem
        rcases List.mem_append.mp hmem with hmem' | hmem'
        · rcases List.mem_append.mp hmem' with hmem'' | hmem''
          · exact hA (by rw [hAsplit]; simp [hmem''])
          · exact hpar' hmem''
        · exact hA (by rw [hAsplit]; simp [hmem'])
    · rcases mW with hmW | hmW
      · omega
      · rcases mo with hmo | hmo
        · omega
        · rcases mS with hmS | hmS
          · -- inside the brace-free span B
            have hbounds : (u ++ CTOR ++ A ++ [')'] ++ W ++ ['\x7b']).length ≤ x.length ∧
                x.length + w.length ≤
                  (u ++ CTOR ++ A ++ [')'] ++ W ++ ['\x7b']).length + B.length := by
              rw [hL5]
              omega
            obtain ⟨B1, B2, hBsplit, hx, hy⟩ := span_inside hDB hbounds.1 hbounds.2
            refine ⟨u, A, W, B1 ++ w' ++ B2, v, ?_, hA, hW, ?_⟩
            · rw [hx, hy, ctorShape]
              simp [List.append_assoc]
            · intro hmem
              rcases List.mem_append.mp hmem with hmem' | hmem'
              · rcases List.mem_append.mp hmem' with hmem'' | hmem''
                · exact hB (by rw [hBsplit]; simp [hmem''])
                · exact hcb' hmem''
              · exact hB (by rw [hBsplit]; simp [hmem'])
          · -- inside v
            have hbounds : (u ++ ctorShape A W B).length ≤ x.length := by
              rw [hL7]
              omega
            have htot : x.length + w.length ≤ (u ++ ctorShape A W B).length + v.length := by
              rw [hL7]
              omega
            obtain ⟨v1, v2, hv, hx, hy⟩ := span_inside hDv hbounds htot
            refine ⟨u, A, W, B, v1 ++ w' ++ v2, ?_, hA, hW, hB⟩
            have hy' : y = v2 := by simpa using hy
            rw [hx, hy']
            simp [List.append_assoc]

/-- The conditions under which one pair of pattern and replacement is inert
for the constructor search: the replacement can take no part in a match, and
the pattern may sit inside the flexible spans. -/
def inertPair (pr : List Char × List Char) : Prop :=
  pr.1 ≠ [] ∧ pr.2 ≠ [] ∧ noOvl CTOR pr.2 = true ∧ noOvl SUPER pr.2 = true ∧
  ')' ∉ pr.2 ∧ '\x7b' ∉ pr.2 ∧ (∃ c ∈ pr.2, isWs c = false) ∧
  ')' ∉ pr.1 ∧ '\x7d' ∉ pr.1

instance : DecidablePred inertPair := fun pr => by
  unfold inertPair
  infer_instance

theorem ctor_swap_join {w w' : List Char}
    (hwne : w ≠ [])
    (hCw : noOvl CTOR w = true) (hSw : noOvl SUPER w = true)
    (hpar : ')' ∉ w) (hob : '\x7b' ∉ w)
    (hnw : ∃ c ∈ w, isWs c = false)
    (hpar' : ')' ∉ w') (hcb' : '\x7d' ∉ w') :
    ∀ (ss : List (List Char)) (x : List Char),
      CtorOcc (x ++ joinWith w ss) → CtorOcc (x ++ joinWith w' ss) := by
  intro ss
  induction ss with
  | nil => intro x h; simpa [joinWith] using h
  | cons s ss ih =>
    intro x hocc
    cases ss with
    | nil => simpa [joinWith] using hocc
    | cons a ss' =>
      rw [joinWith_cons₂] at hocc ⊢
      have hocc' : CtorOcc ((x ++ s) ++ w ++ joinWith w (a :: ss')) := by
        have h' : x ++ (s ++ w ++ joinWith w (a :: ss')) =
            (x ++ s) ++ w ++ joinWith w (a :: ss') := by simp [List.append_assoc]
        rw [← h']
        simpa [List.append_assoc] using hocc
      have h1 := ctor_swap hwne hCw hSw hpar hob hnw hpar' hcb' hocc'
      have h2 := ih (x ++ s ++ w') (by
        have h' : (x ++ s) ++ w' ++ joinWith w (a :: ss') =
            (x ++ s ++ w') ++ joinWith w (a :: ss') := by simp [List.append_assoc]
        rw [← h']
        exact h1)
      have h3 : (x ++ s ++ w') ++ joinWith w' (a :: ss') =
          x ++ (s ++ w' ++ joinWith w' (a :: ss')) := by simp [List.append_assoc]
      rw [← h3]
      exact h2

/-- A constructor match after one substitution pass pulls back to a match
before it. -/
theorem replaceAll_ctor_pull {p r t : List Char} (hin : inertPair (p, r))
    (h : CtorOcc (replaceAll p r t)) : CtorOcc t := by
  obtain ⟨hp, hr, hC, hS, hpar, hob, hnw, hpar', hcb'⟩ := hin
  obtain ⟨ss, hne, h1, h2, h3⟩ := replaceAll_chunks p r hp t.length t le_rfl
  rw [h2] at h
  rw [h1]
  have := ctor_swap_join hr hC hS hpar hob hnw hpar' hcb' ss [] (by simpa using h)
  simpa using this

theorem applyRules_ctor_pull :
    ∀ (rs : List (List Char × List Char)) (t : List Char),
      (∀ pr ∈ rs, inertPair pr) → CtorOcc (applyRules rs t) → CtorOcc t := by
  intro rs
  induction rs with
  | nil => intro t _ h; exact h
  | cons pr rs ih =>
    intro t h hocc
    rw [applyRules_cons] at hocc
    exact replaceAll_ctor_pull (h pr (by simp))
      (ih _ (fun z hz => h z (by simp [hz])) hocc)

/-- The five call-site rules are inert for the constructor search. -/
theorem rules_inert : ∀ pr ∈ rules, inertPair pr := by decide

/-- A constructor match after the substitution step pulls back to the
original text. -/
theorem substStep_ctor_pull {t : List Char} (h : CtorOcc (substStep t)) : CtorOcc t :=
  applyRules_ctor_pull rules t rules_inert (by rwa [← substStep_eq])

/-- Splicing the import line anywhere cannot create a constructor match. -/
theorem insert_ctor_pull {ins x y : List Char}
    (hins : ins ≠ [] ∧ noOvl CTOR ins = true ∧ noOvl SUPER ins = true ∧
      ')' ∉ ins ∧ '\x7b' ∉ ins ∧ (∃ c ∈ ins, isWs c = false))
    (h : CtorOcc (x ++ ins ++ y)) : CtorOcc (x ++ y) := by
  obtain ⟨h1, h2, h3, h4, h5, h6⟩ := hins
  have := @ctor_swap ins [] h1 h2 h3 h4 h5 h6 (by simp) (by simp) x y h
  simpa using this

/-! ### Facts about the import scan and the two insertion steps -/

theorem semiIdx_eq_charIdx : ∀ l : List Char, semiIdx l = charIdx ';' l := by
  intro l
  induction l with
  | nil => rfl
  | cons c t ih => simp [semiIdx, charIdx, ih]

/-- A successful anchored import match is `import…;` up to the first `;`. -/
theorem importMatchLen_shape {s : List Char} {n : Nat} (h : importMatchLen s = some n) :
    ∃ m1 rest, s = "import".data ++ m1 ++ ';' :: rest ∧
      n = 6 + m1.length + 1 ∧ m1 ≠ [] ∧ ';' ∉ m1 := by
  rw [importMatchLen] at h
  split at h
  case isFalse => cases h
  case isTrue hpre =>
  split at h
  case h_2 => cases h
  case h_1 k hsemi =>
  split at h
  case isTrue => cases h
  case isFalse hk0 =>
  simp only [Option.some.injEq] at h
  rw [semiIdx_eq_charIdx] at hsemi
  obtain ⟨m1, rest, h1, h2, h3⟩ := charIdx_some hsemi
  obtain ⟨s1, hs1⟩ := isPrefixOf_iff.mp hpre
  have hs1d : s.drop 6 = s1 := by
    have hlen : ("import".data).length = 6 := rfl
    rw [hs1, ← hlen]
    exact List.drop_left _ _
  rw [hs1d] at h1
  refine ⟨m1, rest, by rw [hs1, h1]; simp [List.append_assoc], by omega, ?_, h3⟩
  intro hnil
  subst hnil
  simp at h2
  exact hk0 h2.symm

/-- Every reported import match occurs in the text, is nonempty, and ends in
`;`. -/
theorem findImportsAux_mem :
    ∀ (fuel : Nat) (t : List Char), ∀ m ∈ findImportsAux fuel t,
      Occ m t ∧ m ≠ [] ∧ ∃ m0, m = m0 ++ [';'] := by
  intro fuel
  induction fuel with
  | zero =>
    intro t m hm
    simp [findImportsAux] at hm
  | succ fuel ih =>
    intro t m hm
    cases t with
    | nil => simp [findImportsAux] at hm
    | cons c t' =>
      rw [findImportsAux] at hm
      cases hml : importMatchLen (c :: t') with
      | some k =>
        rw [hml] at hm
        obtain ⟨m1, rest, h1, h2, h3, h4⟩ := importMatchLen_shape hml
        have hfull : c :: t' = ("import".data ++ m1 ++ [';']) ++ rest := by
          rw [h1]; simp [List.append_assoc]
        have hklen : ("import".data ++ m1 ++ [';']).length = k := by
          simp [List.length_append]
          omega
        have htake : (c :: t').take k = "import".data ++ m1 ++ [';'] := by
          rw [hfull, ← hklen]
          exact List.take_left _ _
        rcases List.mem_cons.mp hm with rfl | hm'
        · refine ⟨⟨[], rest, by rw [htake, hfull]; simp⟩, ?_, ?_⟩
          · rw [htake]; simp
          · exact ⟨"import".data ++ m1, by rw [htake]⟩
        · obtain ⟨hocc, hne, hsfx⟩ := ih (t'.drop (k - 1)) m hm'
          refine ⟨?_, hne, hsfx⟩
          obtain ⟨u, hu⟩ : ∃ u, t' = u ++ t'.drop (k - 1) :=
            ⟨t'.take (k - 1), (List.take_append_drop _ _).symm⟩
          obtain ⟨a, b, hab⟩ := hocc
          exact ⟨c :: u ++ a, b, by rw [List.cons_append, hu, hab]; simp [List.append_assoc]⟩
      | none =>
        rw [hml] at hm
        obtain ⟨hocc, hne, hsfx⟩ := ih t' m hm
        exact ⟨occ_of_tail hocc, hne, hsfx⟩

theorem findImports_mem {t m : List Char} (hm : m ∈ findImports t) :
    Occ m t ∧ m ≠ [] ∧ ∃ m0, m = m0 ++ [';'] :=
  findImportsAux_mem t.length t m hm

/-- The import guard string sits inside the inserted import line. -/
theorem marker1_in_importLine :
    importLine = marker1 ++ " from './DebugLogger.js';".data := by decide

theorem importStep_guard {content : List Char} (hg : containsSub marker1 content = true) :
    importStep content = content := by
  rw [importStep, if_pos hg]

theorem importStep_none {content : List Char} (hg : ¬ containsSub marker1 content = true)
    (h : (findImports content).getLast? = none) :
    importStep content = importLine ++ '\n' :: content := by
  rw [importStep, if_neg hg, h]

theorem importStep_some {content last : List Char} (hg : ¬ containsSub marker1 content = true)
    (h : (findImports content).getLast? = some last) :
    importStep content = replaceFirst last (last ++ '\n' :: importLine) content := by
  rw [importStep, if_neg hg, h]

/-- After the import step the guard substring is present. -/
theorem importStep_marker (content : List Char) :
    containsSub marker1 (importStep content) = true := by
  by_cases hg : containsSub marker1 content = true
  · rw [importStep_guard hg]; exact hg
  · cases hlast : (findImports content).getLast? with
    | none =>
      rw [importStep_none hg hlast]
      exact containsSub_iff.mpr ⟨[], " from './DebugLogger.js';".data ++ '\n' :: content,
        by rw [marker1_in_importLine]; simp⟩
    | some last =>
      rw [importStep_some hg hlast]
      have hmem : last ∈ findImports content := List.mem_of_mem_getLast? hlast
      obtain ⟨hocc, hne, _⟩ :=
        findImports_mem hmem
      obtain ⟨pre, post, h1, h2⟩ := replaceFirst_spec (r := last ++ '\n' :: importLine) hne hocc
      rw [h2]
      refine containsSub_iff.mpr ⟨pre ++ last ++ ['\n'],
        " from './DebugLogger.js';".data ++ post, ?_⟩
      rw [marker1_in_importLine]
      simp [List.append_assoc]

/-- The import step either does nothing or splices the import line (after the
last import, or in front of the document). -/
theorem importStep_cases (content : List Char) :
    importStep content = content ∨
    ∃ pre post ins, content = pre ++ post ∧ importStep content = pre ++ ins ++ post ∧
      (ins = '\n' :: importLine ∨ ins = importLine ++ ['\n']) ∧
      (pre = [] ∨ ∃ pre0, pre = pre0 ++ [';']) := by
  by_cases hg : containsSub marker1 content = true
  · rw [importStep_guard hg]; exact Or.inl rfl
  · cases hlast : (findImports content).getLast? with
    | none =>
      rw [importStep_none hg hlast]
      refine Or.inr ⟨[], content, importLine ++ ['\n'], by simp, by simp, Or.inr rfl, Or.inl rfl⟩
    | some last =>
      rw [importStep_some hg hlast]
      have hmem : last ∈ findImports content := List.mem_of_mem_getLast? hlast
      obtain ⟨hocc, hne, m0, hm0⟩ :=
        findImports_mem hmem
      obtain ⟨pre, post, h1, h2⟩ := replaceFirst_spec (r := last ++ '\n' :: importLine) hne hocc
      refine Or.inr ⟨pre ++ last, post, '\n' :: importLine,
        by rw [h1]; try simp [List.append_assoc],
        by rw [h2]; try simp [List.append_assoc],
        Or.inl rfl, Or.inr ⟨pre ++ m0, by rw [hm0]; try simp⟩⟩

/-- The acquisition guard string sits inside the inserted logger line. -/
theorem marker2_in_loggerLine (cls : List Char) :
    loggerLine cls = ('\n' :: "    ".data) ++ marker2 ++
      ('(' :: qc :: (cls ++ qc :: ");".data)) := by
  have h : "    this.debug = DebugLogger.create(".data =
      "    ".data ++ marker2 ++ ['('] := by decide
  rw [loggerLine, h]
  simp [List.append_assoc]

theorem loggerStep_guard {content : List Char} (cls : List Char)
    (hg : containsSub marker2 content = true) : loggerStep cls content = content := by
  rw [loggerStep, if_pos hg]

theorem loggerStep_none {cls content : List Char} (hg : ¬ containsSub marker2 content = true)
    (h : ctorSearch content = none) : loggerStep cls content = content := by
  rw [loggerStep, if_neg hg, h]

theorem loggerStep_some {cls content m : List Char} (hg : ¬ containsSub marker2 content = true)
    (h : ctorSearch content = some m) :
    loggerStep cls content = replaceFirst m (m ++ loggerLine cls) content := by
  rw [loggerStep, if_neg hg, h]

/-- The logger step either does nothing or splices the logger line right
after a span ending in `super();`. -/
theorem loggerStep_cases (cls content : List Char) :
    loggerStep cls content = content ∨
    ∃ pre post, content = pre ++ post ∧ (∃ pre0, pre = pre0 ++ SUPER) ∧
      loggerStep cls content = pre ++ loggerLine cls ++ post := by
  by_cases hg : containsSub marker2 content = true
  · rw [loggerStep_guard cls hg]; exact Or.inl rfl
  · cases hs : ctorSearch content with
    | none => rw [loggerStep_none hg hs]; exact Or.inl rfl
    | some m =>
      rw [loggerStep_some hg hs]
      obtain ⟨u, v, A, W, B, h1, h2, h3, h4⟩ := ctorSearch_some_spec hs
      have hne : m ≠ [] := by
        intro hnil
        rw [hnil] at h2
        have := congrArg List.length h2
        simp [ctorShape] at this
        have hC : CTOR.length = 12 := rfl
        have hS : SUPER.length = 8 := rfl
        omega
      have hocc : Occ m content := ⟨u, v, h1⟩
      obtain ⟨pre, post, hp1, hp2⟩ := replaceFirst_spec (r := m ++ loggerLine cls) hne hocc
      refine Or.inr ⟨pre ++ m, post, by rw [hp1]; try simp [List.append_assoc], ?_,
        by rw [hp2]; try simp [List.append_assoc]⟩
      refine ⟨pre ++ CTOR ++ A ++ ')' :: (W ++ '\x7b' :: B), ?_⟩
      rw [h2, ctorShape]
      simp [List.append_assoc]

/-- After an insertion by the logger step the guard substring is present. -/
theorem loggerStep_marker {cls content : List Char}
    (h : loggerStep cls content ≠ content) :
    containsSub marker2 (loggerStep cls content) = true := by
  rcases loggerStep_cases cls content with hc | ⟨pre, post, h1, _, h2⟩
  · exact absurd hc h
  · rw [h2, marker2_in_loggerLine]
    exact containsSub_iff.mpr ⟨pre ++ ('\n' :: "    ".data),
      ('(' :: qc :: (cls ++ qc :: ");".data)) ++ post, by simp [List.append_assoc]⟩

/-! ### Marker survival through the pipeline -/

theorem rules_marker1 : ∀ pr ∈ rules, pr.1 ≠ [] ∧ noOvl marker1 pr.1 = true := by decide

theorem rules_marker2_pat : ∀ pr ∈ rules, pr.1 ≠ [] ∧ noOvl marker2 pr.1 = true := by decide

theorem rules_marker2_rep : ∀ pr ∈ rules, pr.1 ≠ [] ∧ noOvl marker2 pr.2 = true := by decide

/-- The logger step preserves every occurrence of a `;`-free string: the
inserted line always lands right after a `;`. -/
theorem loggerStep_occ {q cls content : List Char} (hq : ';' ∉ q)
    (h : Occ q content) : Occ q (loggerStep cls content) := by
  rcases loggerStep_cases cls content with hc | ⟨pre, post, h1, ⟨pre0, hpre0⟩, h2⟩
  · rw [hc]; exact h
  · rw [h2]
    have hx : ∃ x', pre = x' ++ [';'] := by
      refine ⟨pre0 ++ "super()".data, ?_⟩
      rw [hpre0]
      have hS : SUPER = "super()".data ++ [';'] := by decide
      rw [hS]
      simp [List.append_assoc]
    exact occ_insert hx hq (h1 ▸ h)

/-! ### C1: the transform is idempotent -/

/-- **C1.** The per-file transform is idempotent: running `update_file`'s
in-memory rewrite twice produces exactly the text of running it once, for
every document and every component name. -/
theorem transform_idempotent (cls content : List Char) :
    transform cls (transform cls content) = transform cls content := by
  have hm1D1 : containsSub marker1 (importStep content) = true := importStep_marker content
  have hm1D2 : Occ marker1 (loggerStep cls (importStep content)) :=
    loggerStep_occ (by decide) (containsSub_iff.mp hm1D1)
  have hm1out : Occ marker1 (transform cls content) :=
    applyRules_occ rules _ rules_marker1 hm1D2
  have himp : importStep (transform cls content) = transform cls content :=
    importStep_guard (containsSub_iff.mpr hm1out)
  have hlog : loggerStep cls (transform cls content) = transform cls content := by
    by_cases hm2 : containsSub marker2 (transform cls content) = true
    · exact loggerStep_guard cls hm2
    · refine loggerStep_none hm2 (ctorSearch_none_iff.mpr ?_)
      intro hocc
      have hoccD2 : CtorOcc (loggerStep cls (importStep content)) := substStep_ctor_pull hocc
      by_cases hg1 : containsSub marker2 (importStep content) = true
      · have hD2 : loggerStep cls (importStep content) = importStep content :=
          loggerStep_guard cls hg1
        have : Occ marker2 (transform cls content) :=
          applyRules_occ rules _ rules_marker2_pat (by rw [hD2]; exact containsSub_iff.mp hg1)
        exact hm2 (containsSub_iff.mpr this)
      · cases hsearch : ctorSearch (importStep content) with
        | some m =>
          have hD2 : loggerStep cls (importStep content) =
              replaceFirst m (m ++ loggerLine cls) (importStep content) :=
            loggerStep_some hg1 hsearch
          obtain ⟨u, v, A, W, B, h1, hshape, _, _⟩ := ctorSearch_some_spec hsearch
          have hne : m ≠ [] := by
            intro hnil
            rw [hnil] at hshape
            have := congrArg List.length hshape
            simp [ctorShape] at this
            have hC : CTOR.length = 12 := rfl
            have hS : SUPER.length = 8 := rfl
            omega
          obtain ⟨pre, post, hp1, hp2⟩ :=
            replaceFirst_spec (r := m ++ loggerLine cls) hne ⟨u, v, h1⟩
          have hm2D2 : Occ marker2 (loggerStep cls (importStep content)) := by
            rw [hD2, hp2, marker2_in_loggerLine]
            exact ⟨pre ++ m ++ ('\n' :: "    ".data),
              ('(' :: qc :: (cls ++ qc :: ");".data)) ++ post, by simp [List.append_assoc]⟩
          have : Occ marker2 (transform cls content) :=
            applyRules_occ rules _ rules_marker2_pat hm2D2
          exact hm2 (containsSub_iff.mpr this)
        | none =>
          have hD2 : loggerStep cls (importStep content) = importStep content :=
            loggerStep_none hg1 hsearch
          have hnone : ¬ CtorOcc (importStep content) := ctorSearch_none_iff.mp hsearch
          rw [hD2] at hoccD2
          exact hnone hoccD2
  have hsub : substStep (transform cls content) = transform cls content :=
    substStep_idem (loggerStep cls (importStep content))
  show substStep (loggerStep cls (importStep (transform cls content))) = transform cls content
  rw [himp, hlog, hsub]

/-! ### Tagged decomposition: the substitution step replaces exactly the
pattern occurrences, respectively, and changes nothing else -/

/-- The five call-site patterns, by rule index. -/
def pat : Fin 5 → List Char
  | 0 => "console.log(".data
  | 1 => "console.warn(".data
  | 2 => "console.error(".data
  | 3 => "console.info(".data
  | 4 => "console.debug(".data

/-- The five replacements, by rule index. -/
def rep : Fin 5 → List Char
  | 0 => "this.debug.log(".data
  | 1 => "this.debug.warn(".data
  | 2 => "this.debug.error(".data
  | 3 => "this.debug.info(".data
  | 4 => "this.debug.debug(".data

/-- A text as alternating segments and tagged separators:
`tjoin f s₀ [(k₁,s₁),…] = s₀ ++ f k₁ ++ s₁ ++ …`. -/
def tjoin (f : Fin 5 → List Char) : List Char → List (Fin 5 × List Char) → List Char
  | s, [] => s
  | s, (k, s') :: rest => s ++ f k ++ tjoin f s' rest

theorem tjoin_congr {f f' : Fin 5 → List Char} (h : ∀ k, f k = f' k) :
    ∀ (rest : List (Fin 5 × List Char)) (s : List Char), tjoin f s rest = tjoin f' s rest := by
  intro rest
  induction rest with
  | nil => intro s; rfl
  | cons pr rest ih =>
    intro s
    obtain ⟨k, s'⟩ := pr
    rw [tjoin, tjoin, h k, ih]

theorem tjoin_head (f : Fin 5 → List Char) (s : List Char) (rest : List (Fin 5 × List Char)) :
    ∃ z, tjoin f s rest = s ++ z := by
  cases rest with
  | nil => exact ⟨[], by simp [tjoin]⟩
  | cons pr rest =>
    obtain ⟨k, s'⟩ := pr
    exact ⟨f k ++ tjoin f s' rest, by rw [tjoin]; simp [List.append_assoc]⟩

theorem tjoin_head_cons (f : Fin 5 → List Char) (c : Char) (s : List Char)
    (rest : List (Fin 5 × List Char)) :
    tjoin f (c :: s) rest = c :: tjoin f s rest := by
  cases rest with
  | nil => rfl
  | cons pr rest =>
    obtain ⟨k, s'⟩ := pr
    rw [tjoin, tjoin]
    simp

/-- Which rule pattern starts the text, if any (patterns are mutually
prefix-incompatible, so at most one can). -/
def headPat (s : List Char) : Option (Fin 5) :=
  if (pat 0).isPrefixOf s then some 0
  else if (pat 1).isPrefixOf s then some 1
  else if (pat 2).isPrefixOf s then some 2
  else if (pat 3).isPrefixOf s then some 3
  else if (pat 4).isPrefixOf s then some 4
  else none

theorem headPat_some {s : List Char} {k : Fin 5} (h : headPat s = some k) :
    ∃ v, s = pat k ++ v := by
  rw [headPat] at h
  split_ifs at h with h0 h1 h2 h3 h4 <;>
    simp only [Option.some.injEq] at h
  · rw [← h]; exact isPrefixOf_iff.mp h0
  · rw [← h]; exact isPrefixOf_iff.mp h1
  · rw [← h]; exact isPrefixOf_iff.mp h2
  · rw [← h]; exact isPrefixOf_iff.mp h3
  · rw [← h]; exact isPrefixOf_iff.mp h4

theorem headPat_none {s : List Char} (h : headPat s = none) :
    ∀ k : Fin 5, ¬ (pat k).isPrefixOf s = true := by
  rw [headPat] at h
  split_ifs at h with h0 h1 h2 h3 h4
  intro k
  fin_cases k
  · exact h0
  · exact h1
  · exact h2
  · exact h3
  · exact h4

/-- Every text decomposes into pattern-free segments separated by pattern
occurrences. -/
theorem exists_tagged : ∀ n (t : List Char), t.length ≤ n →
    ∃ (s0 : List Char) (rest : List (Fin 5 × List Char)), t = tjoin pat s0 rest ∧
      ∀ s ∈ s0 :: rest.map Prod.snd, ∀ k : Fin 5, ¬ Occ (pat k) s := by
  intro n
  induction n with
  | zero =>
    intro t ht
    have : t = [] := List.eq_nil_of_length_eq_zero (by omega)
    subst this
    refine ⟨[], [], rfl, ?_⟩
    intro s hs k
    simp at hs
    subst hs
    intro hocc
    have : pat k ≠ [] := by fin_cases k <;> decide
    exact this (occ_nil_iff.mp hocc)
  | succ n ih =>
    intro t ht
    cases t with
    | nil =>
      refine ⟨[], [], rfl, ?_⟩
      intro s hs k
      simp at hs
      subst hs
      intro hocc
      have : pat k ≠ [] := by fin_cases k <;> decide
      exact this (occ_nil_iff.mp hocc)
    | cons c t' =>
      cases hfp : headPat (c :: t') with
      | some k =>
        obtain ⟨v, hv⟩ := headPat_some hfp
        have hpos : 1 ≤ (pat k).length := by fin_cases k <;> decide
        have hvlen : v.length ≤ n := by
          have hlen := congrArg List.length hv
          simp at hlen
          have ht' : t'.length + 1 ≤ n + 1 := by simpa using ht
          omega
        obtain ⟨s0, rest, h1, h2⟩ := ih v hvlen
        refine ⟨[], (k, s0) :: rest, ?_, ?_⟩
        · rw [tjoin]
          simp only [List.nil_append]
          rw [← h1, hv]
        · intro s hs k'
          simp only [List.map_cons, List.mem_cons] at hs
          rcases hs with rfl | hs'
          · intro hocc
            have : pat k' ≠ [] := by fin_cases k' <;> decide
            exact this (occ_nil_iff.mp hocc)
          · exact h2 s (by simpa using hs') k'
      | none =>
        obtain ⟨s0, rest, h1, h2⟩ := ih t' (by simpa using Nat.le_of_succ_le_succ ht)
        refine ⟨c :: s0, rest, by rw [tjoin_head_cons, ← h1], ?_⟩
        intro s hs k
        rcases List.mem_cons.mp hs with rfl | hs'
        · intro hocc
          rcases occ_cons_cases hocc with ⟨v, hv⟩ | hocc'
          · obtain ⟨z, hz⟩ := tjoin_head pat s0 rest
            have hpre : (pat k).isPrefixOf (c :: t') = true := by
              refine isPrefixOf_iff.mpr ⟨v ++ z, ?_⟩
              rw [h1, hz]
              have : (c :: s0) ++ z = pat k ++ v ++ z := by rw [hv]
              simpa [List.append_assoc] using this
            exact headPat_none hfp k hpre
          · exact h2 s0 (by simp) k hocc'
        · exact h2 s (by simp [hs']) k

/-- The scan passes unchanged over a region in which no occurrence of the
pattern starts. -/
theorem replaceAll_pass {p r : List Char} :
    ∀ (s z : List Char),
      (∀ s1 s2, s = s1 ++ s2 → s2 ≠ [] → ¬ p.isPrefixOf (s2 ++ z) = true) →
      replaceAll p r (s ++ z) = s ++ replaceAll p r z := by
  intro s
  induction s with
  | nil => intro z _; simp
  | cons c s ih =>
    intro z hno
    rw [List.cons_append, replaceAll]
    have hnp : ¬ p.isPrefixOf (c :: (s ++ z)) = true := by
      have := hno [] (c :: s) rfl (by simp)
      simpa using this
    rw [if_neg hnp]
    rw [ih z (fun s1 s2 h hne => hno (c :: s1) s2 (by simp [h]) hne)]
    simp

/-- The scan fires on an aligned pattern occurrence. -/
theorem replaceAll_head {p r z : List Char} (hp : p ≠ []) :
    replaceAll p r (p ++ z) = r ++ replaceAll p r z := by
  cases p with
  | nil => exact absurd rfl hp
  | cons c p' =>
    rw [List.cons_append, replaceAll]
    have hpre : (c :: p').isPrefixOf (c :: (p' ++ z)) = true :=
      isPrefixOf_iff.mpr ⟨z, by simp⟩
    rw [if_pos hpre]
    have : (p' ++ z).drop ((c :: p').length - 1) = z := by
      simp [List.drop_left]
    rw [this]

/-- On a tagged join whose segments avoid `p` and whose other separators
cannot overlap `p`, one pass rewrites precisely the separators equal to `p`. -/
theorem replaceAll_tjoin {p r : List Char} (hp : p ≠ []) (hself : selfFree p = true) :
    ∀ (rest : List (Fin 5 × List Char)) (s0 : List Char) (f : Fin 5 → List Char),
      (∀ k : Fin 5, f k = p ∨ (f k ≠ [] ∧ noOvl p (f k) = true)) →
      (∀ s ∈ s0 :: rest.map Prod.snd, ¬ Occ p s) →
      replaceAll p r (tjoin f s0 rest) =
        tjoin (fun k => if f k = p then r else f k) s0 rest := by
  intro rest
  induction rest with
  | nil =>
    intro s0 f _ hfree
    exact replaceAll_id_of_free (hfree s0 (by simp))
  | cons pr rest ih =>
    intro s0 f hf hfree
    obtain ⟨k, s1⟩ := pr
    rw [tjoin, List.append_assoc]
    have hs0free : ¬ Occ p s0 := hfree s0 (by simp)
    have hpass0 : replaceAll p r (s0 ++ (f k ++ tjoin f s1 rest)) =
        s0 ++ replaceAll p r (f k ++ tjoin f s1 rest) := by
      apply replaceAll_pass
      intro s1' s2' hsplit hne hpre
      obtain ⟨v, hv⟩ := isPrefixOf_iff.mp hpre
      by_cases hlen : p.length ≤ s2'.length
      · obtain ⟨m, hm1, hm2⟩ := split_append hv.symm hlen
        exact hs0free ⟨s1', m, by rw [hsplit, hm1]; simp [List.append_assoc]⟩
      · push_neg at hlen
        obtain ⟨m', hm1, hm2⟩ := split_append hv (by omega)
        have hm'ne : m' ≠ [] := by
          intro hnil
          subst hnil
          have := congrArg List.length hm1
          simp at this
          omega
      -- m' is a nonempty proper suffix of p and a prefix of f k ++ …
        rcases hf k with hfk | ⟨hfkne, hfkno⟩
        · -- the separator is the pattern itself: self-overlap
          by_cases hlen2 : m'.length ≤ (f k).length
          · obtain ⟨m'', hm''1, hm''2⟩ := split_append hm2.symm hlen2
            rw [hfk] at hm''1
            exact selfFree_spec hself hm1 hm'ne hne hm''1
          · push_neg at hlen2
            obtain ⟨m'', hm''1, hm''2⟩ := split_append hm2 (by omega)
            rw [hfk] at hm''1
            have hocc : Occ p p := by
              rw [(rfl : Occ p p = Occ p p)]
              exact ⟨[], [], by simp⟩
            have hlenp := congrArg List.length hm1
            have hlenm := congrArg List.length hm''1
            simp at hlenp hlenm
            have hs2'pos : 0 < s2'.length := List.length_pos.mpr hne
            omega
        · by_cases hlen2 : m'.length ≤ (f k).length
          · obtain ⟨m'', hm''1, hm''2⟩ := split_append hm2.symm hlen2
            exact noOvl_sfx_a hfkno hm1 hm'ne hm''1
          · push_neg at hlen2
            obtain ⟨m'', hm''1, hm''2⟩ := split_append hm2 (by omega)
            exact noOvl_not_occ_ba hfkno ⟨s2', m'', by rw [hm1, hm''1, List.append_assoc]⟩
    rw [hpass0]
    by_cases hfk : f k = p
    · rw [hfk, replaceAll_head hp]
      rw [ih s1 f hf (fun s hs => hfree s (by simpa using List.mem_cons_of_mem _ hs))]
      rw [tjoin]
      simp only [if_pos hfk]
      rw [List.append_assoc]
    · have hpass1 : replaceAll p r (f k ++ tjoin f s1 rest) =
          f k ++ replaceAll p r (tjoin f s1 rest) := by
        apply replaceAll_pass
        intro s1' s2' hsplit hne hpre
        obtain ⟨v, hv⟩ := isPrefixOf_iff.mp hpre
        rcases hf k with hfk' | ⟨hfkne, hfkno⟩
        · exact hfk hfk'
        · by_cases hlen : p.length ≤ s2'.length
          · obtain ⟨m, hm1, hm2⟩ := split_append hv.symm hlen
            exact noOvl_not_occ_ab hfkno ⟨s1', m, by rw [hsplit, hm1]; simp [List.append_assoc]⟩
          · push_neg at hlen
            obtain ⟨m', hm1, hm2⟩ := split_append hv (by omega)
            have hm'ne : m' ≠ [] := by
              intro hnil
              subst hnil
              have := congrArg List.length hm1
              simp at this
              omega
            exact noOvl_sfx_b hfkno hsplit hne hm1
      rw [hpass1]
      rw [ih s1 f hf (fun s hs => hfree s (by simpa using List.mem_cons_of_mem _ hs))]
      rw [tjoin]
      simp only [if_neg hfk]
      rw [List.append_assoc]

/-- Which separator text stands at each tag after `n` of the five rules have
run. -/
def stageTags (n : Nat) (k : Fin 5) : List Char :=
  if (k : Nat) < n then rep k else pat k

/-- Running all five rules on a tagged join rewrites every tag to its
replacement and leaves the segments untouched. -/
theorem substStep_tjoin {s0 : List Char} {rest : List (Fin 5 × List Char)}
    (hfree : ∀ s ∈ s0 :: rest.map Prod.snd, ∀ k : Fin 5, ¬ Occ (pat k) s) :
    substStep (tjoin pat s0 rest) = tjoin rep s0 rest := by
  have h0 : tjoin pat s0 rest = tjoin (stageTags 0) s0 rest :=
    tjoin_congr (fun k => by simp [stageTags]) rest s0
  have e0 : replaceAll (pat 0) (rep 0) (tjoin (stageTags 0) s0 rest) =
      tjoin (stageTags 1) s0 rest := by
    rw [replaceAll_tjoin (by decide) (by decide) rest s0 (stageTags 0)
      (by intro k; fin_cases k <;> decide) (fun s hs => hfree s hs 0)]
    exact tjoin_congr (fun k => by fin_cases k <;> decide) rest s0
  have e1 : replaceAll (pat 1) (rep 1) (tjoin (stageTags 1) s0 rest) =
      tjoin (stageTags 2) s0 rest := by
    rw [replaceAll_tjoin (by decide) (by decide) rest s0 (stageTags 1)
      (by intro k; fin_cases k <;> decide) (fun s hs => hfree s hs 1)]
    exact tjoin_congr (fun k => by fin_cases k <;> decide) rest s0
  have e2 : replaceAll (pat 2) (rep 2) (tjoin (stageTags 2) s0 rest) =
      tjoin (stageTags 3) s0 rest := by
    rw [replaceAll_tjoin (by decide) (by decide) rest s0 (stageTags 2)
      (by intro k; fin_cases k <;> decide) (fun s hs => hfree s hs 2)]
    exact tjoin_congr (fun k => by fin_cases k <;> decide) rest s0
  have e3 : replaceAll (pat 3) (rep 3) (tjoin (stageTags 3) s0 rest) =
      tjoin (stageTags 4) s0 rest := by
    rw [replaceAll_tjoin (by decide) (by decide) rest s0 (stageTags 3)
      (by intro k; fin_cases k <;> decide) (fun s hs => hfree s hs 3)]
    exact tjoin_congr (fun k => by fin_cases k <;> decide) rest s0
  have e4 : replaceAll (pat 4) (rep 4) (tjoin (stageTags 4) s0 rest) =
      tjoin (stageTags 5) s0 rest := by
    rw [replaceAll_tjoin (by decide) (by decide) rest s0 (stageTags 4)
      (by intro k; fin_cases k <;> decide) (fun s hs => hfree s hs 4)]
    exact tjoin_congr (fun k => by fin_cases k <;> decide) rest s0
  have h5 : tjoin (stageTags 5) s0 rest = tjoin rep s0 rest :=
    tjoin_congr (fun k => by fin_cases k <;> decide) rest s0
  calc substStep (tjoin pat s0 rest)
      = replaceAll (pat 4) (rep 4) (replaceAll (pat 3) (rep 3) (replaceAll (pat 2) (rep 2)
          (replaceAll (pat 1) (rep 1) (replaceAll (pat 0) (rep 0)
            (tjoin pat s0 rest))))) := rfl
    _ = tjoin rep s0 rest := by rw [h0, e0, e1, e2, e3, e4, h5]

/-! ### The claims -/

/-- **C2.** Call-site substitution is total and argument-preserving: every
document splits into segments free of the five openers, separated by opener
occurrences; the substitution step rewrites each opener to its respective
logger opener and reproduces the segments byte for byte, and no opener
survives in the output. -/
theorem callsite_subst_total_and_frame (t : List Char) :
    ∃ s0 rest, t = tjoin pat s0 rest ∧ substStep t = tjoin rep s0 rest ∧
      (∀ s ∈ s0 :: rest.map Prod.snd, ∀ k : Fin 5, ¬ Occ (pat k) s) ∧
      ∀ k : Fin 5, ¬ Occ (pat k) (substStep t) := by
  obtain ⟨s0, rest, h1, h2⟩ := exists_tagged t.length t le_rfl
  refine ⟨s0, rest, h1, ?_, h2, ?_⟩
  · rw [h1]
    exact substStep_tjoin h2
  · intro k
    have hmem : (pat k, rep k) ∈ rules := by fin_cases k <;> decide
    exact substStep_pat_free t (pat k, rep k) hmem

/-- **C3.** Import insertion correctness: on a document with exactly one
import-statement match and no logger-import marker, the import step splices
`import DebugLogger from './DebugLogger.js';` immediately after that import,
once, leaving all other text unchanged. -/
theorem import_insertion_after_unique_import {content imp : List Char}
    (h1 : findImports content = [imp]) (h2 : containsSub marker1 content = false) :
    ∃ pre post, content = pre ++ imp ++ post ∧
      importStep content = pre ++ imp ++ ('\n' :: importLine) ++ post := by
  have hmem : imp ∈ findImports content := by rw [h1]; simp
  obtain ⟨hocc, hne, _⟩ := findImports_mem hmem
  have hlast : (findImports content).getLast? = some imp := by rw [h1]; rfl
  obtain ⟨pre, post, hp1, hp2⟩ :=
    replaceFirst_spec (r := imp ++ '\n' :: importLine) hne hocc
  refine ⟨pre, post, hp1, ?_⟩
  rw [importStep_some (by simp [h2]) hlast, hp2]
  simp [List.append_assoc]

/-- The document of the import-insertion witness. -/
def d3 : List Char := "import Foo from \"foo\";\nclass X;".data

/-- Its unique import statement. -/
def d3imp : List Char := "import Foo from \"foo\";".data

theorem import_insertion_witness :
    ∃ pre post, d3 = pre ++ d3imp ++ post ∧
      importStep d3 = pre ++ d3imp ++ ('\n' :: importLine) ++ post :=
  import_insertion_after_unique_import (by decide) (by decide)

/-- **C4.** Fallback import insertion: on a document with no import-statement
match and no logger-import marker, the import step prepends the logger import
as the first line, the original content following unchanged. -/
theorem import_insertion_fallback {content : List Char}
    (h1 : findImports content = []) (h2 : containsSub marker1 content = false) :
    importStep content = importLine ++ '\n' :: content :=
  importStep_none (by simp [h2]) (by rw [h1]; rfl)

/-- The document of the fallback witness. -/
def d4 : List Char := "class X; console.log(1);".data

theorem import_fallback_witness : importStep d4 = importLine ++ '\n' :: d4 :=
  import_insertion_fallback (by decide) (by decide)

/-- **C5.** Logger-acquisition placement: on a document whose constructor
pattern matches and which lacks the acquisition marker, the logger step
splices the `this.debug = DebugLogger.create('…');` line immediately after
the matched span — which ends right after `super();` — and a second scan of
the result changes nothing. -/
theorem logger_acquisition_placement {content m : List Char} (cls : List Char)
    (h1 : containsSub marker2 content = false) (h2 : ctorSearch content = some m) :
    (∃ m0, m = m0 ++ SUPER) ∧
    (∃ pre post, content = pre ++ m ++ post ∧
      loggerStep cls content = pre ++ m ++ loggerLine cls ++ post) ∧
    loggerStep cls (loggerStep cls content) = loggerStep cls content := by
  obtain ⟨u, v, A, W, B, hs1, hs2, _, _⟩ := ctorSearch_some_spec h2
  have hne : m ≠ [] := by
    intro hnil
    rw [hnil] at hs2
    have := congrArg List.length hs2
    simp [ctorShape] at this
    have hC : CTOR.length = 12 := rfl
    have hS : SUPER.length = 8 := rfl
    omega
  obtain ⟨pre, post, hp1, hp2⟩ :=
    replaceFirst_spec (r := m ++ loggerLine cls) hne ⟨u, v, hs1⟩
  have hres : loggerStep cls content = pre ++ m ++ loggerLine cls ++ post := by
    rw [loggerStep_some (by simp [h1]) h2, hp2]
    simp [List.append_assoc]
  have hends : ∃ m0, m = m0 ++ SUPER := by
    refine ⟨CTOR ++ A ++ ')' :: (W ++ '\x7b' :: B), ?_⟩
    rw [hs2, ctorShape]
    simp [List.append_assoc]
  refine ⟨hends, ⟨pre, post, hp1, hres⟩, ?_⟩
  have hm2 : containsSub marker2 (loggerStep cls content) = true := by
    rw [hres, marker2_in_loggerLine]
    exact containsSub_iff.mpr ⟨pre ++ m ++ ('\n' :: "    ".data),
      ('(' :: qc :: (cls ++ qc :: ");".data)) ++ post, by simp [List.append_assoc]⟩
  exact loggerStep_guard cls hm2

/-- The document of the placement witness. -/
def d5 : List Char := "class A extends B \x7b constructor(x) \x7b super(); this.x = x; \x7d \x7d".data

/-- The span the constructor pattern matches in it. -/
def d5m : List Char := "constructor(x) \x7b super();".data

theorem logger_acquisition_witness :
    (∃ m0, d5m = m0 ++ SUPER) ∧
    (∃ pre post, d5 = pre ++ d5m ++ post ∧
      loggerStep "Widget".data d5 = pre ++ d5m ++ loggerLine "Widget".data ++ post) ∧
    loggerStep "Widget".data (loggerStep "Widget".data d5) =
      loggerStep "Widget".data d5 :=
  logger_acquisition_placement "Widget".data (by decide) (by decide)

/-- The two-`super();` document refuting the non-greedy reading. -/
def d6 : List Char := "constructor(x) \x7b super(); foo(); super(); \x7d".data

/-- What the greedy code actually captures in it. -/
def d6long : List Char := "constructor(x) \x7b super(); foo(); super();".data

/-- What a non-greedy match would capture. -/
def d6short : List Char := "constructor(x) \x7b super();".data

/-- **C6, counterexample.** With two `super();` calls before the first `}`,
the captured span ends after the second one, not after the first as the
claim states. -/
theorem ctor_anchor_not_first_super :
    ctorSearch d6 = some d6long ∧ ctorSearch d6 ≠ some d6short := by
  constructor
  · decide
  · decide

/-- **C6, amended.** The captured span is the declaration header, the
superclass calls and anything brace-free between them, ending immediately
after the **last** `super();` that lies before the first closing brace: no
further `super();` follows the span inside the same brace-free region. -/
theorem ctor_anchor_last_super {t m : List Char} (h : ctorSearch t = some m) :
    ∃ u v A W B, t = u ++ m ++ v ∧ m = ctorShape A W B ∧ ctorConds A W B ∧
      ¬ ∃ B2 rest, v = B2 ++ SUPER ++ rest ∧ '\x7d' ∉ B2 :=
  ctorSearch_some_spec h

theorem ctor_anchor_last_super_witness :
    ∃ u v A W B, d6 = u ++ d6long ++ v ∧ d6long = ctorShape A W B ∧ ctorConds A W B ∧
      ¬ ∃ B2 rest, v = B2 ++ SUPER ++ rest ∧ '\x7d' ∉ B2 :=
  ctor_anchor_last_super (by decide)

/-- **C7.** At-most-once insertion: in one run each of the two insertion
edits either leaves the document unchanged or splices exactly one copy of
its line at one position, and each is disabled outright by its presence
check. -/
theorem insertion_at_most_once (cls content : List Char) :
    (importStep content = content ∨
      ∃ pre post ins, content = pre ++ post ∧ importStep content = pre ++ ins ++ post ∧
        (ins = '\n' :: importLine ∨ ins = importLine ++ ['\n'])) ∧
    (loggerStep cls content = content ∨
      ∃ pre post, content = pre ++ post ∧
        loggerStep cls content = pre ++ loggerLine cls ++ post) ∧
    (containsSub marker1 content = true → importStep content = content) ∧
    (containsSub marker2 content = true → loggerStep cls content = content) := by
  refine ⟨?_, ?_, importStep_guard, loggerStep_guard cls⟩
  · rcases importStep_cases content with h | ⟨pre, post, ins, h1, h2, h3, _⟩
    · exact Or.inl h
    · exact Or.inr ⟨pre, post, ins, h1, h2, h3⟩
  · rcases loggerStep_cases cls content with h | ⟨pre, post, h1, _, h2⟩
    · exact Or.inl h
    · exact Or.inr ⟨pre, post, h1, h2⟩

/-- **C8.** No-anchor tolerance: on a document with no
constructor-with-super pattern, the transform is exactly import insertion
followed by call-site substitution — the logger step changes nothing. -/
theorem no_anchor_tolerance {cls content : List Char} (h : ¬ CtorOcc content) :
    transform cls content = substStep (importStep content) := by
  have himp : ¬ CtorOcc (importStep content) := by
    intro hocc
    rcases importStep_cases content with hc | ⟨pre, post, ins, h1, h2, h3, _⟩
    · rw [hc] at hocc
      exact h hocc
    · rw [h2] at hocc
      have hins : ins ≠ [] ∧ noOvl CTOR ins = true ∧ noOvl SUPER ins = true ∧
          ')' ∉ ins ∧ '\x7b' ∉ ins ∧ (∃ c ∈ ins, isWs c = false) := by
        rcases h3 with rfl | rfl
        · exact ⟨by decide, by decide, by decide, by decide, by decide, by decide⟩
        · exact ⟨by decide, by decide, by decide, by decide, by decide, by decide⟩
      have hpull := insert_ctor_pull hins hocc
      rw [← h1] at hpull
      exact h hpull
  show substStep (loggerStep cls (importStep content)) = substStep (importStep content)
  congr 1
  by_cases hg : containsSub marker2 (importStep content) = true
  · exact loggerStep_guard cls hg
  · exact loggerStep_none hg (ctorSearch_none_iff.mpr himp)

/-- The document of the no-anchor witness. -/
def d8 : List Char := "import A from 'a';\nconsole.log(x);".data

theorem no_anchor_witness : transform "W".data d8 = substStep (importStep d8) :=
  no_anchor_tolerance (ctorSearch_none_iff.mp (by decide))

theorem runBatch_append (fs : FS) (l1 l2 : List (List Char × List Char)) :
    runBatch fs (l1 ++ l2) =
      ((runBatch (runBatch fs l1).1 l2).1,
       (runBatch fs l1).2 ++ (runBatch (runBatch fs l1).1 l2).2) := by
  induction l1 generalizing fs with
  | nil => simp [runBatch]
  | cons e t ih =>
    obtain ⟨path, cls⟩ := e
    simp only [List.cons_append, runBatch, List.append_eq]
    rw [ih]
    simp [List.append_assoc]

/-- **C9.** Missing-file tolerance: when the entry `(path, cls)` names a file
absent from the filesystem reached after the preceding entries, the batch
leaves the filesystem exactly as the batch without that entry would, and
its log is the preceding entries' log, then the skip notice, then the log
the remaining entries produce from that same filesystem. -/
theorem missing_file_tolerance (fs : FS) (path cls : List Char)
    (pre post : List (List Char × List Char))
    (h : readFS (runBatch fs pre).1 path = none) :
    (runBatch fs (pre ++ (path, cls) :: post)).1 = (runBatch fs (pre ++ post)).1 ∧
    (runBatch fs (pre ++ (path, cls) :: post)).2 =
      (runBatch fs pre).2 ++ skipMsg path :: (runBatch (runBatch fs pre).1 post).2 ∧
    (runBatch fs (pre ++ post)).2 =
      (runBatch fs pre).2 ++ (runBatch (runBatch fs pre).1 post).2 := by
  have hstep : runBatch (runBatch fs pre).1 ((path, cls) :: post) =
      ((runBatch (runBatch fs pre).1 post).1,
       skipMsg path :: (runBatch (runBatch fs pre).1 post).2) := by
    simp [runBatch, update_file, h]
  refine ⟨?_, ?_, ?_⟩
  · rw [runBatch_append fs pre ((path, cls) :: post),
      runBatch_append fs pre post, hstep]
  · rw [runBatch_append fs pre ((path, cls) :: post), hstep]
  · rw [runBatch_append fs pre post]

/-- The filesystem of the missing-file witness. -/
def fs9 : FS := [("a".data, "x".data)]

theorem missing_file_witness :
    (runBatch fs9 ([] ++ ("missing".data, "M".data) :: [("a".data, "A".data)])).1 =
      (runBatch fs9 ([] ++ [("a".data, "A".data)])).1 ∧
    (runBatch fs9 ([] ++ ("missing".data, "M".data) :: [("a".data, "A".data)])).2 =
      (runBatch fs9 []).2 ++ skipMsg "missing".data ::
        (runBatch (runBatch fs9 []).1 [("a".data, "A".data)]).2 ∧
    (runBatch fs9 ([] ++ [("a".data, "A".data)])).2 =
      (runBatch fs9 []).2 ++ (runBatch (runBatch fs9 []).1 [("a".data, "A".data)]).2 :=
  missing_file_tolerance fs9 "missing".data "M".data []
    [("a".data, "A".data)] (by decide)

/-- A constructor whose default parameter contains a call: the inner `)`
ends the parameter scan early. -/
def d10a : List Char := "constructor(a = f()) \x7b super(); \x7d".data

/-- A constructor where a closing brace precedes the `super();` call. -/
def d10b : List Char := "constructor(x) \x7b if (y) \x7b \x7d super(); \x7d".data

/-- **C10.** The anchor needs a clean prefix: the logger step only inserts
when the document holds a span `constructor(A)W\x7bB super();` with `A`
free of `)`, `W` all whitespace and `B` free of `\x7d`; on a document with
no such span the logger line is never inserted, and the two sample
documents — one with a `)` inside the parameter list, one with a `\x7d`
before the `super();` — defeat the search even though both contain
`constructor(` and `super();`. -/
theorem ctor_anchor_requires_clean_prefix :
    (∀ (cls t : List Char), ¬ CtorOcc t → loggerStep cls t = t) ∧
    ctorSearch d10a = none ∧ ctorSearch d10b = none ∧
    (∀ cls : List Char, loggerStep cls d10a = d10a ∧ loggerStep cls d10b = d10b) ∧
    Occ CTOR d10a ∧ Occ SUPER d10a ∧ Occ CTOR d10b ∧ Occ SUPER d10b := by
  have hnone : ∀ (cls t : List Char), ¬ CtorOcc t → loggerStep cls t = t := by
    intro cls t hocc
    by_cases hg : containsSub marker2 t = true
    · exact loggerStep_guard cls hg
    · exact loggerStep_none hg (ctorSearch_none_iff.mpr hocc)
  refine ⟨hnone, by decide, by decide, ?_, ?_, ?_, ?_, ?_⟩
  · intro cls
    exact ⟨hnone cls d10a (ctorSearch_none_iff.mp (by decide)),
      hnone cls d10b (ctorSearch_none_iff.mp (by decide))⟩
  · exact containsSub_iff.mp (by decide)
  · exact containsSub_iff.mp (by decide)
  · exact containsSub_iff.mp (by decide)
  · exact containsSub_iff.mp (by decide)

end UpdateDebug
